import Mathlib

/-!
# Verification of the rustify traversal-and-transformation pipeline

This file is a shallow embedding, in Lean 4, of the transformation pipeline
implemented in `rustify.py`: the directory traversal (`traverse_repo`), the
per-file processing (`process_file`), the `main` entry point, and the string
and path operations they are built on (`str.replace`, `os.path.join`,
`os.path.relpath`, `pathlib.Path.parent`, `Path.mkdir`, `open(..., "r"/"w")`).

Modelling conventions:
* Python strings are Lean `String`s; the character-level operations are
  defined on `List Char` and wrapped.
* Paths are plain strings, exactly as in the source.  `os.path.relpath` is
  modelled for already-absolute (or consistently-rooted) normalized paths:
  the `abspath` calls inside `posixpath.relpath` are the identity there.
* The filesystem is a pair of association lists: `files : List (path ×
  contents)` (insertion-ordered, later entries never shadow earlier ones
  because updates are in place) and `dirs : List path` of existing
  directories.  `os.walk` is modelled as the enumeration, in list order, of
  the files lying strictly below the walked root at the start of the run.
* The LLM call `rustify_agent.llm` is an opaque parameter
  `cap : String → Except String String`; a raised exception is `Except.error`.
* Raised Python exceptions are `PyError`; `print` appends to a log.
-/

set_option autoImplicit false
set_option maxRecDepth 100000

namespace Rustify

/-! ## Character-list primitives mirroring Python `str` operations -/

/-- Boolean list-prefix test (used both for `List Char` and for component
lists); mirrors the scanning done by `str.replace` and `str.startswith`. -/
def isPre {α : Type} [DecidableEq α] : List α → List α → Bool
  | [], _ => true
  | _ :: _, [] => false
  | a :: as, b :: bs => a = b && isPre as bs

/-- Fuelled worker for Python `str.replace` with a nonempty pattern
`p :: ps`: replace every non-overlapping occurrence, scanning left to
right.  A match at the head consumes the head character plus `ps.length`
further characters; the fuel (an upper bound on the length) keeps the
recursion structural so the kernel can evaluate it. -/
def replFuel (p : Char) (ps rep : List Char) : Nat → List Char → List Char
  | 0, s => s
  | _ + 1, [] => []
  | n + 1, c :: cs =>
    if isPre (p :: ps) (c :: cs) = true then
      rep ++ replFuel p ps rep n (List.drop ps.length cs)
    else
      c :: replFuel p ps rep n cs

/-- Python `str.replace` with nonempty pattern `p :: ps`. -/
def replAux (p : Char) (ps rep s : List Char) : List Char :=
  replFuel p ps rep s.length s

theorem replFuel_congr (p : Char) (ps rep : List Char) :
    ∀ (m n : Nat) (s : List Char), s.length ≤ m → s.length ≤ n →
      replFuel p ps rep m s = replFuel p ps rep n s := by
  intro m
  induction m with
  | zero =>
    intro n s hm _
    have : s = [] := List.eq_nil_of_length_eq_zero (Nat.le_zero.mp hm)
    subst this
    cases n <;> rfl
  | succ m ih =>
    intro n s hm hn
    cases s with
    | nil => cases n <;> rfl
    | cons c cs =>
      cases n with
      | zero => simp at hn
      | succ n =>
        simp only [List.length_cons] at hm hn
        show (if isPre (p :: ps) (c :: cs) = true then
            rep ++ replFuel p ps rep m (List.drop ps.length cs)
          else c :: replFuel p ps rep m cs) =
          (if isPre (p :: ps) (c :: cs) = true then
            rep ++ replFuel p ps rep n (List.drop ps.length cs)
          else c :: replFuel p ps rep n cs)
        by_cases hpre : isPre (p :: ps) (c :: cs) = true
        · rw [if_pos hpre, if_pos hpre,
            ih n (List.drop ps.length cs)
              (by simp only [List.length_drop]; omega)
              (by simp only [List.length_drop]; omega)]
        · rw [if_neg hpre, if_neg hpre, ih n cs (by omega) (by omega)]

/-- Python `s.replace(old, new)` (the source only ever calls it with
`old = ".py"`; the empty-pattern case is never exercised). -/
def strReplace (s old new : String) : String :=
  match old.data with
  | [] => s
  | p :: ps => String.mk (replAux p ps new.data s.data)

/-- Python `s.endswith(suf)`. -/
def strEndsWith (s suf : String) : Bool :=
  List.isSuffixOf suf.data s.data

/-- Split a character list at `'/'`, keeping empty components, so that
`joinSlash (splitSlash s) = s`. -/
def splitSlash : List Char → List (List Char)
  | [] => [[]]
  | c :: cs =>
    if c = '/' then [] :: splitSlash cs
    else (c :: (splitSlash cs).headI) :: (splitSlash cs).tail

/-- Inverse of `splitSlash`: interleave `'/'` between components. -/
def joinSlash : List (List Char) → List Char
  | [] => []
  | [c] => c
  | c :: c' :: t => c ++ '/' :: joinSlash (c' :: t)

theorem splitSlash_ne_nil (s : List Char) : splitSlash s ≠ [] := by
  cases s with
  | nil => simp [splitSlash]
  | cons c cs =>
    simp only [splitSlash]
    split <;> simp

theorem joinSlash_cons_head (x : Char) (h : List Char) (t : List (List Char)) :
    joinSlash ((x :: h) :: t) = x :: joinSlash (h :: t) := by
  cases t with
  | nil => rfl
  | cons y ys => rfl

theorem joinSlash_splitSlash (s : List Char) : joinSlash (splitSlash s) = s := by
  induction s with
  | nil => rfl
  | cons c cs ih =>
    by_cases hc : c = '/'
    · subst hc
      cases hsp : splitSlash cs with
      | nil => exact absurd hsp (splitSlash_ne_nil cs)
      | cons h t =>
        rw [hsp] at ih
        simp [splitSlash, hsp, joinSlash, ih]
    · cases hsp : splitSlash cs with
      | nil => exact absurd hsp (splitSlash_ne_nil cs)
      | cons h t =>
        rw [hsp] at ih
        simp [splitSlash, hc, hsp, joinSlash_cons_head, ih]

/-- `splitSlash` distributes over an explicit slash. -/
theorem splitSlash_append_slash (a b : List Char) :
    splitSlash (a ++ '/' :: b) = splitSlash a ++ splitSlash b := by
  induction a with
  | nil => simp [splitSlash]
  | cons c cs ih =>
    show splitSlash (c :: (cs ++ '/' :: b)) = splitSlash (c :: cs) ++ splitSlash b
    by_cases hc : c = '/'
    · subst hc
      simp [splitSlash, ih]
    · cases hsp : splitSlash cs with
      | nil => exact absurd hsp (splitSlash_ne_nil cs)
      | cons h t => simp [splitSlash, hc, ih, hsp]

/-- Every component produced by `splitSlash` is slash-free. -/
theorem splitSlash_no_slash (s : List Char) :
    ∀ c ∈ splitSlash s, '/' ∉ c := by
  induction s with
  | nil =>
    intro c hc
    have : c = [] := by simpa [splitSlash] using hc
    simp [this]
  | cons x xs ih =>
    intro c hc
    by_cases hx : x = '/'
    · rw [splitSlash, if_pos hx] at hc
      rcases List.mem_cons.mp hc with hc | hc
      · simp [hc]
      · exact ih c hc
    · rw [splitSlash, if_neg hx] at hc
      cases hsp : splitSlash xs with
      | nil => exact absurd hsp (splitSlash_ne_nil xs)
      | cons h t =>
        rw [hsp] at hc
        simp only [List.headI, List.tail] at hc
        rcases List.mem_cons.mp hc with hc | hc
        · subst hc
          intro hmem
          rcases List.mem_cons.mp hmem with hmem | hmem
          · exact hx hmem.symm
          · exact ih h (by rw [hsp]; exact List.mem_cons_self h t) hmem
        · exact ih c (by rw [hsp]; exact List.mem_cons_of_mem h hc)

/-- A slash-free character list is a single `splitSlash` component. -/
theorem splitSlash_of_no_slash (c : List Char) (hf : '/' ∉ c) :
    splitSlash c = [c] := by
  induction c with
  | nil => rfl
  | cons x xs ih =>
    have hx : ¬ x = '/' := fun h => hf (by rw [h]; exact List.mem_cons_self '/' xs)
    have hxs : '/' ∉ xs := fun h => hf (List.mem_cons_of_mem x h)
    rw [splitSlash, if_neg hx, ih hxs]
    rfl

/-! ### Occurrence scanning lemmas for `replAux` -/

/-- Python `pat in s` (substring occurrence test), for nonempty `pat`. -/
def hasOcc (pat : List Char) : List Char → Bool
  | [] => isPre pat []
  | c :: cs => isPre pat (c :: cs) || hasOcc pat cs

theorem replAux_nil (p : Char) (ps rep : List Char) :
    replAux p ps rep [] = [] := rfl

theorem replAux_cons (p : Char) (ps rep : List Char) (c : Char) (cs : List Char) :
    replAux p ps rep (c :: cs) =
      if isPre (p :: ps) (c :: cs) = true then
        rep ++ replAux p ps rep (List.drop ps.length cs)
      else
        c :: replAux p ps rep cs := by
  show (if isPre (p :: ps) (c :: cs) = true then
      rep ++ replFuel p ps rep cs.length (List.drop ps.length cs)
    else c :: replFuel p ps rep cs.length cs) = _
  rw [replFuel_congr p ps rep cs.length (List.drop ps.length cs).length
      (List.drop ps.length cs) (by simp only [List.length_drop]; omega) le_rfl]
  rfl

theorem isPre_length {pat a : List Char} (h : isPre pat a = true) :
    pat.length ≤ a.length := by
  induction pat generalizing a with
  | nil => simp
  | cons p ps ih =>
    cases a with
    | nil => simp [isPre] at h
    | cons x xs =>
      simp only [isPre, Bool.and_eq_true] at h
      simpa using ih h.2

theorem isPre_append {pat a : List Char} (y : List Char)
    (h : isPre pat a = true) : isPre pat (a ++ y) = true := by
  induction pat generalizing a with
  | nil => simp [isPre]
  | cons p ps ih =>
    cases a with
    | nil => simp [isPre] at h
    | cons x xs =>
      simp only [isPre, Bool.and_eq_true] at h
      simp only [List.cons_append, isPre, Bool.and_eq_true]
      exact ⟨h.1, ih h.2⟩

theorem isPre_append_noslash {pat : List Char} (hp : ('/' : Char) ∉ pat)
    {a b : List Char} (h : isPre pat (a ++ '/' :: b) = true) :
    isPre pat a = true := by
  induction pat generalizing a with
  | nil => simp [isPre]
  | cons p ps ih =>
    cases a with
    | nil =>
      simp only [List.nil_append, isPre, Bool.and_eq_true, decide_eq_true_eq] at h
      exact absurd (h.1 ▸ List.mem_cons_self p ps) hp
    | cons x xs =>
      simp only [List.cons_append, isPre, Bool.and_eq_true] at h
      simp only [isPre, Bool.and_eq_true]
      exact ⟨h.1, ih (fun hm => hp (List.mem_cons_of_mem p hm)) h.2⟩

theorem replAux_slash_cons {p : Char} {ps : List Char}
    (hp : ('/' : Char) ∉ p :: ps) (rep b : List Char) :
    replAux p ps rep ('/' :: b) = '/' :: replAux p ps rep b := by
  have hpre : isPre (p :: ps) ('/' :: b) = false := by
    have hph : ¬ p = '/' := fun h => hp (by rw [h]; exact List.mem_cons_self '/' ps)
    simp [isPre, hph]
  rw [replAux_cons, if_neg (by simp [hpre])]

/-- The central distribution property: the pattern is slash-free, so no
match of `str.replace` straddles a `'/'`, and replacement acts
independently on the two sides. -/
theorem replAux_append_slash {p : Char} {ps : List Char} (rep : List Char)
    (hp : ('/' : Char) ∉ p :: ps) :
    ∀ (a b : List Char),
      replAux p ps rep (a ++ '/' :: b) =
        replAux p ps rep a ++ '/' :: replAux p ps rep b := by
  suffices H : ∀ (n : Nat) (a b : List Char), a.length ≤ n →
      replAux p ps rep (a ++ '/' :: b) =
        replAux p ps rep a ++ '/' :: replAux p ps rep b by
    exact fun a b => H a.length a b le_rfl
  intro n
  induction n with
  | zero =>
    intro a b ha
    have : a = [] := List.eq_nil_of_length_eq_zero (Nat.le_zero.mp ha)
    subst this
    simp [replAux_slash_cons hp, replAux_nil]
  | succ n ih =>
    intro a b ha
    cases a with
    | nil => simp [replAux_slash_cons hp, replAux_nil]
    | cons c cs =>
      have hsplit : (c :: cs) ++ '/' :: b = c :: (cs ++ '/' :: b) := rfl
      by_cases h2 : isPre (p :: ps) (c :: cs) = true
      · have h1 : isPre (p :: ps) (c :: (cs ++ '/' :: b)) = true := by
          have := isPre_append ('/' :: b) h2
          simpa using this
        have hlen : ps.length ≤ cs.length := by
          have := isPre_length h2
          simpa using this
        have hdrop :
            List.drop ps.length (cs ++ '/' :: b) =
              List.drop ps.length cs ++ '/' :: b :=
          List.drop_append_of_le_length hlen
        have hlen2 : (List.drop ps.length cs).length ≤ n := by
          simp only [List.length_drop]
          have : (c :: cs).length ≤ n + 1 := ha
          simp only [List.length_cons] at this
          omega
        rw [hsplit, replAux_cons, if_pos h1, replAux_cons, if_pos h2, hdrop,
          ih _ b hlen2, List.append_assoc]
      · have h1 : isPre (p :: ps) (c :: (cs ++ '/' :: b)) = false := by
          cases hx : isPre (p :: ps) (c :: (cs ++ '/' :: b)) with
          | false => rfl
          | true =>
            have : isPre (p :: ps) (c :: cs) = true := by
              have := isPre_append_noslash hp (a := c :: cs) (by simpa using hx)
              exact this
            exact absurd this h2
        have hlen : cs.length ≤ n := by
          have : (c :: cs).length ≤ n + 1 := ha
          simp only [List.length_cons] at this
          omega
        rw [hsplit, replAux_cons, if_neg (by simp [h1]), replAux_cons,
          if_neg (by simp [h2]), ih _ b hlen]
        rfl

/-- A string with no occurrence of the pattern is left unchanged. -/
theorem replAux_of_not_hasOcc {p : Char} {ps rep s : List Char}
    (h : hasOcc (p :: ps) s = false) : replAux p ps rep s = s := by
  induction s with
  | nil => exact replAux_nil p ps rep
  | cons c cs ih =>
    simp only [hasOcc, Bool.or_eq_false_iff] at h
    rw [replAux_cons, if_neg (by simp [h.1]), ih h.2]

/-- Characters of the replaced string come from the source or from the
replacement. -/
theorem mem_replAux {p : Char} {ps rep : List Char} {x : Char} :
    ∀ {s : List Char}, x ∈ replAux p ps rep s → x ∈ s ∨ x ∈ rep := by
  suffices H : ∀ (n : Nat) (s : List Char), s.length ≤ n →
      x ∈ replAux p ps rep s → x ∈ s ∨ x ∈ rep by
    exact fun {s} => H s.length s le_rfl
  intro n
  induction n with
  | zero =>
    intro s hs hx
    have : s = [] := List.eq_nil_of_length_eq_zero (Nat.le_zero.mp hs)
    subst this
    rw [replAux_nil] at hx
    cases hx
  | succ n ih =>
    intro s hs hx
    cases s with
    | nil =>
      rw [replAux_nil] at hx
      cases hx
    | cons c cs =>
      rw [replAux_cons] at hx
      by_cases hc : isPre (p :: ps) (c :: cs) = true
      · rw [if_pos hc] at hx
        rcases List.mem_append.mp hx with hx | hx
        · exact Or.inr hx
        · have hlen : (List.drop ps.length cs).length ≤ n := by
            simp only [List.length_drop]
            have : (c :: cs).length ≤ n + 1 := hs
            simp only [List.length_cons] at this
            omega
          rcases ih _ hlen hx with hx | hx
          · exact Or.inl (List.mem_cons_of_mem c (List.mem_of_mem_drop hx))
          · exact Or.inr hx
      · rw [if_neg hc] at hx
        rcases List.mem_cons.mp hx with hx | hx
        · exact Or.inl (hx ▸ List.mem_cons_self c cs)
        · have hlen : cs.length ≤ n := by
            have : (c :: cs).length ≤ n + 1 := hs
            simp only [List.length_cons] at this
            omega
          rcases ih _ hlen hx with hx | hx
          · exact Or.inl (List.mem_cons_of_mem c hx)
          · exact Or.inr hx

/-- If the pattern occurs, the result is at least as long as the
replacement text. -/
theorem replAux_length_of_hasOcc {p : Char} {ps rep : List Char} :
    ∀ {s : List Char}, hasOcc (p :: ps) s = true →
      rep.length ≤ (replAux p ps rep s).length := by
  intro s
  induction s with
  | nil =>
    intro h
    simp [hasOcc, isPre] at h
  | cons c cs ih =>
    intro h
    by_cases hc : isPre (p :: ps) (c :: cs) = true
    · rw [replAux_cons, if_pos hc]
      simp
    · rw [replAux_cons, if_neg hc]
      simp only [hasOcc, Bool.or_eq_true] at h
      rcases h with h | h
      · exact absurd h hc
      · have := ih h
        simp only [List.length_cons]
        omega

/-- A result strictly shorter than the replacement text means nothing was
replaced at all. -/
theorem replAux_short {p : Char} {ps rep s : List Char}
    (h : (replAux p ps rep s).length < rep.length) :
    replAux p ps rep s = s := by
  apply replAux_of_not_hasOcc
  cases hx : hasOcc (p :: ps) s with
  | false => rfl
  | true => exact absurd (@replAux_length_of_hasOcc p ps rep s hx) (by omega)

theorem replAux_ne_nil {p : Char} {ps rep s : List Char} (hrep : rep ≠ [])
    (hs : s ≠ []) : replAux p ps rep s ≠ [] := by
  cases s with
  | nil => exact absurd rfl hs
  | cons c cs =>
    rw [replAux_cons]
    by_cases hc : isPre (p :: ps) (c :: cs) = true
    · rw [if_pos hc]
      simp [hrep]
    · rw [if_neg hc]
      simp


/-- `splitSlash` is a left inverse of `joinSlash` on nonempty lists of
slash-free components. -/
theorem splitSlash_joinSlash (cs : List (List Char)) (hne : cs ≠ [])
    (hfree : ∀ c ∈ cs, '/' ∉ c) : splitSlash (joinSlash cs) = cs := by
  induction cs with
  | nil => exact absurd rfl hne
  | cons c t ih =>
    cases t with
    | nil => exact splitSlash_of_no_slash c (hfree c (List.mem_cons_self c []))
    | cons c' t' =>
      have hj : joinSlash (c :: c' :: t') = c ++ '/' :: joinSlash (c' :: t') := rfl
      rw [hj, splitSlash_append_slash,
        splitSlash_of_no_slash c (hfree c (List.mem_cons_self c _)),
        ih (by simp) (fun a ha => hfree a (List.mem_cons_of_mem c ha))]
      rfl

/-- `str.replace` with a slash-free pattern acts componentwise on a joined
path. -/
theorem replAux_joinSlash {p : Char} {ps rep : List Char}
    (hp : ('/' : Char) ∉ p :: ps) (cs : List (List Char)) :
    replAux p ps rep (joinSlash cs) = joinSlash (cs.map (replAux p ps rep)) := by
  induction cs with
  | nil => exact replAux_nil p ps rep
  | cons c t ih =>
    cases t with
    | nil => rfl
    | cons c' t' =>
      have hj : joinSlash (c :: c' :: t') = c ++ '/' :: joinSlash (c' :: t') := rfl
      rw [hj, replAux_append_slash rep hp, ih]
      rfl

/-- Components of the replaced path are the replaced components, in order:
the component structure (hence nesting depth) is preserved. -/
theorem splitSlash_replAux {p : Char} {ps rep : List Char}
    (hp : ('/' : Char) ∉ p :: ps) (hrep : ('/' : Char) ∉ rep) (s : List Char) :
    splitSlash (replAux p ps rep s) = (splitSlash s).map (replAux p ps rep) := by
  conv_lhs => rw [← joinSlash_splitSlash s]
  rw [replAux_joinSlash hp]
  apply splitSlash_joinSlash
  · simpa using splitSlash_ne_nil s
  · intro c hc
    rcases List.mem_map.mp hc with ⟨a, ha, rfl⟩
    intro hx
    rcases mem_replAux hx with hx | hx
    · exact splitSlash_no_slash s a ha hx
    · exact hrep hx

/-! ## The pipeline's path operations (`os.path`, `pathlib`) -/

/-- `os.path.join` (POSIX semantics, as exercised by the source). -/
def pathJoin (a b : String) : String :=
  if b.data.head? = some '/' then b
  else if a = "" then b
  else if a.data.getLast? = some '/' then a ++ b
  else a ++ "/" ++ b

/-- Nonempty path components, as `posixpath.relpath` computes them
(`[x for x in path.split(sep) if x]`), for already-normalized paths. -/
def compsF (s : String) : List (List Char) :=
  (splitSlash s.data).filter (fun c => ¬ c = [])

/-- `os.path.commonprefix` on two component lists (elementwise). -/
def commonPreLen : List (List Char) → List (List Char) → Nat
  | a :: as, b :: bs => if a = b then commonPreLen as bs + 1 else 0
  | _, _ => 0

/-- `os.path.relpath(p, start)` for consistently-rooted normalized paths
(on which the internal `abspath` is the identity). -/
def relpath (p start : String) : String :=
  let pl := compsF p
  let sl := compsF start
  let i := commonPreLen sl pl
  let rel := List.replicate (sl.length - i) ['.', '.'] ++ pl.drop i
  if rel = [] then "." else String.mk (joinSlash rel)

/-- Whether a path is absolute. -/
def isAbs (s : String) : Bool := s.data.head? = some '/'

/-- Path components as `pathlib.PurePosixPath` parses them: empty and `.`
segments are dropped. -/
def pdirComps (s : String) : List (List Char) :=
  (splitSlash s.data).filter (fun c => ¬ (c = [] ∨ c = ['.']))

/-- Rebuild a path from parsed components (the string form `pathlib`
prints). -/
def mkPath (abs : Bool) (cs : List (List Char)) : String :=
  if abs then String.mk ('/' :: joinSlash cs) else String.mk (joinSlash cs)

/-- `pathlib.Path(s).parent`. -/
def parentDir (s : String) : String :=
  let cs := (pdirComps s).dropLast
  if isAbs s then mkPath true cs
  else if cs = [] then "." else mkPath false cs

/-- The chain of directories `Path(d).mkdir(parents=True)` creates (every
nonempty prefix of `d`'s components, innermost last). -/
def dirsToMake (d : String) : List String :=
  (List.range (pdirComps d).length).map
    (fun k => mkPath (isAbs d) ((pdirComps d).take (k + 1)))

/-! ## Filesystem model -/

/-- Association-list lookup (first match). -/
def lookupA : List (String × String) → String → Option String
  | [], _ => none
  | (k, v) :: t, q => if k = q then some v else lookupA t q

/-- Association-list update: in place if the key exists (preserving
position), appended otherwise — matching how overwriting an existing file
keeps, and creating a file extends, the directory listing. -/
def updateA : List (String × String) → String → String → List (String × String)
  | [], k, v => [(k, v)]
  | (k', v') :: t, k, v =>
    if k' = k then (k, v) :: t else (k', v') :: updateA t k v

/-- List membership as a Bool (string lists). -/
def memA : List String → String → Bool
  | [], _ => false
  | d :: t, q => if d = q then true else memA t q

/-- Add a directory if not present. -/
def addA (l : List String) (d : String) : List String :=
  if memA l d = true then l else l ++ [d]

/-- Add several directories (in order). -/
def addAllA (l : List String) : List String → List String
  | [] => l
  | d :: t => addAllA (addA l d) t

/-- The filesystem: a listing of regular files (path, contents) and of
existing directories. -/
structure FS where
  files : List (String × String)
  dirs : List String
deriving DecidableEq

/-- Python exceptions the pipeline can raise. -/
inductive PyError where
  | fileNotFound (p : String)
  | fileExists (p : String)
  | isADir (p : String)
  | capError (msg : String)
deriving DecidableEq

deriving instance DecidableEq for Except

/-- `str(e)` as interpolated into the error log line. -/
def errMsg : PyError → String
  | PyError.fileNotFound p => "No such file or directory: " ++ p
  | PyError.fileExists p => "File exists: " ++ p
  | PyError.isADir p => "Is a directory: " ++ p
  | PyError.capError m => m

def lookupFile (fs : FS) (p : String) : Option String := lookupA fs.files p

/-- `os.path.exists`. -/
def pathExistsFS (fs : FS) (p : String) : Bool :=
  (lookupFile fs p).isSome || memA fs.dirs p

/-- Whether directory `d` exists (the working directory `.` and the root
`/` always do). -/
def dirExists (fs : FS) (d : String) : Bool :=
  memA fs.dirs d || d = "." || d = "/"

/-- `Path(d).mkdir(parents=True, exist_ok=True)`: creates every missing
ancestor; raises `FileExistsError` if some ancestor (or `d` itself) exists
as a regular file; silent if directories already exist. -/
def mkdirParents (fs : FS) (d : String) : Except PyError FS :=
  if (dirsToMake d).any (fun a => (lookupFile fs a).isSome) then
    Except.error (PyError.fileExists d)
  else
    Except.ok { fs with dirs := addAllA fs.dirs (dirsToMake d) }

/-- `open(p, "w")` followed by a full write: fails if `p` is a directory or
its parent directory does not exist; otherwise fully replaces any prior
contents. -/
def writeFile (fs : FS) (p content : String) : Except PyError FS :=
  if memA fs.dirs p = true then Except.error (PyError.isADir p)
  else if dirExists fs (parentDir p) = true then
    Except.ok { fs with files := updateA fs.files p content }
  else Except.error (PyError.fileNotFound p)

/-- Interpreter state: the filesystem plus everything printed so far. -/
structure PyState where
  fs : FS
  log : List String
deriving DecidableEq

def pushLog (st : PyState) (l : String) : PyState :=
  { st with log := st.log ++ [l] }

/-! ## The pipeline itself (`rustify.py`) -/

/-- The prompt built in `process_file` (lines 75–81). -/
def promptFor (file_content : String) : String :=
  "Analyze the following Python file and determine if it can be converted to Rust without breaking interoperation with the rest of the repository. Provide detailed feedback on compatibility and rewrite it in Rust if possible. Highlight any limitations or challenges, and include comments for clarity and maintainability.\n\n"
    ++ file_content

/-- `process_file(file_path, output_file_path)` (lines 70–94): read the
file, invoke the capability, rewrite `.py` → `_rustified.rs` in the output
path, write the result.  Any raised error is returned, with whatever
side effects (log lines) happened before it. -/
def process_file (cap : String → Except String String) (st : PyState)
    (file_path output_file_path : String) : PyState × Option PyError :=
  match lookupFile st.fs file_path with
  | none => (st, some (PyError.fileNotFound file_path))
  | some file_content =>
    match cap (promptFor file_content) with
    | Except.error m => (st, some (PyError.capError m))
    | Except.ok rustified_code =>
      let st1 := pushLog (pushLog st "Transformation received from Groq:") rustified_code
      let rust_output_file := strReplace output_file_path ".py" "_rustified.rs"
      match writeFile st1.fs rust_output_file rustified_code with
      | Except.error e => (st1, some e)
      | Except.ok fs2 =>
        (pushLog { st1 with fs := fs2 }
          ("Saved Rustified file: " ++ rust_output_file), none)

/-- `os.path.basename`-like: the final path component (the `file` variable
yielded by `os.walk`). -/
def baseName (p : String) : String :=
  String.mk ((splitSlash p.data).getLastD [])

/-- Line 56's eligibility test: `file.endswith(".py")`. -/
def eligibleFile (p : String) : Bool := strEndsWith (baseName p) ".py"

/-- Whether `p` lies strictly below directory `repo` (component-wise). -/
def underRepo (repo p : String) : Bool :=
  isPre (splitSlash repo.data) (splitSlash p.data)
    && decide ((splitSlash repo.data).length < (splitSlash p.data).length)

/-- The files `os.walk(repo)` yields (as full joined paths), modelled as
the listing-order enumeration of files below `repo` at the start of the
run. -/
def walkFiles (fs : FS) (repo : String) : List String :=
  (fs.files.map Prod.fst).filter (fun p => underRepo repo p)

/-- The output path computed at lines 52–53:
`os.path.join(output_dir, os.path.relpath(file_path, repo_path))`. -/
def outputPathOf (repo out p : String) : String := pathJoin out (relpath p repo)

/-- The path actually written, after line 90's
`output_file_path.replace(".py", "_rustified.rs")`. -/
def writtenPathOf (repo out p : String) : String :=
  strReplace (outputPathOf repo out p) ".py" "_rustified.rs"

/-- One iteration of the traversal loop body (lines 50–68): skip
ineligible files silently; otherwise print, create the output parent
directory (outside the `try`), and run `process_file` inside the `try`,
logging—rather than propagating—its error. -/
def traverse_step (cap : String → Except String String) (repo out : String)
    (st : PyState) (file_path : String) : PyState × Option PyError :=
  let output_file_path := outputPathOf repo out file_path
  if eligibleFile file_path = false then (st, none)
  else
    let st1 := pushLog st ("Processing file: " ++ file_path)
    match mkdirParents st1.fs (parentDir output_file_path) with
    | Except.error e => (st1, some e)
    | Except.ok fs2 =>
      match process_file cap { st1 with fs := fs2 } file_path output_file_path with
      | (st3, none) => (st3, none)
      | (st3, some e) =>
        (pushLog st3 ("Error processing " ++ file_path ++ ": " ++ errMsg e), none)

/-- Run the loop over a list of discovered files, stopping at the first
uncaught (non-`process_file`) error, as an uncaught Python exception would
abort the loop. -/
def runFiles (cap : String → Except String String) (repo out : String) :
    List String → PyState → PyState × Option PyError
  | [], st => (st, none)
  | p :: t, st =>
    match traverse_step cap repo out st p with
    | (st', none) => runFiles cap repo out t st'
    | (st', some e) => (st', some e)

/-- `traverse_repo(repo_path, output_dir)` (lines 47–68). -/
def traverse_repo (cap : String → Except String String) (repo out : String)
    (st : PyState) : PyState × Option PyError :=
  runFiles cap repo out (walkFiles st.fs repo) st

/-- The constant paths of `main` (lines 98–99). -/
def repoPathConst : String := "./swarms-master"

def outputDirConst : String := "./swarms-master-rustified"

/-- `main()` (lines 96–108).  The root-existence check precedes all other
work; the `Path(output_dir).mkdir` on line 104 is unreachable (it sits
after the `raise` in the same branch) and so does not appear.  An error
escaping `traverse_repo` propagates, skipping the final print. -/
def mainRun (cap : String → Except String String) (st : PyState) :
    PyState × Option PyError :=
  if pathExistsFS st.fs repoPathConst = false then
    (st, some (PyError.fileNotFound repoPathConst))
  else
    let st1 := pushLog st "Starting the Rustification process..."
    match traverse_repo cap repoPathConst outputDirConst st1 with
    | (st2, none) => (pushLog st2 "Rustification process completed.", none)
    | (st2, some e) => (st2, some e)

/-! ## Basic lemmas about the filesystem primitives -/

theorem lookupA_updateA (l : List (String × String)) (k v q : String) :
    lookupA (updateA l k v) q = if k = q then some v else lookupA l q := by
  induction l with
  | nil =>
    simp only [updateA, lookupA]
  | cons kv t ih =>
    obtain ⟨k', v'⟩ := kv
    simp only [updateA]
    by_cases hk : k' = k
    · rw [if_pos hk]
      subst hk
      simp only [lookupA]
      by_cases hq : k' = q <;> simp [hq]
    · rw [if_neg hk]
      simp only [lookupA, ih]
      by_cases hq : k' = q
      · subst hq
        have hkq : ¬ k = k' := fun h => hk h.symm
        simp [hkq]
      · simp [hq]

theorem memA_iff (l : List String) (x : String) : memA l x = true ↔ x ∈ l := by
  induction l with
  | nil => simp [memA]
  | cons d t ih =>
    by_cases h : d = x
    · subst h
      simp [memA]
    · simp only [memA, if_neg h, ih, List.mem_cons]
      constructor
      · exact Or.inr
      · rintro (hx | hx)
        · exact absurd hx.symm h
        · exact hx

theorem mem_addA (l : List String) (d x : String) :
    x ∈ addA l d ↔ (x ∈ l ∨ x = d) := by
  unfold addA
  by_cases h : memA l d = true
  · rw [if_pos h]
    constructor
    · exact Or.inl
    · rintro (hx | rfl)
      · exact hx
      · exact (memA_iff l x).mp h
  · rw [if_neg h]
    simp

theorem mem_addAllA (ds : List String) : ∀ (l : List String) (x : String),
    x ∈ addAllA l ds ↔ (x ∈ l ∨ x ∈ ds) := by
  induction ds with
  | nil => intro l x; simp [addAllA]
  | cons d t ih =>
    intro l x
    show x ∈ addAllA (addA l d) t ↔ _
    rw [ih, mem_addA]
    constructor
    · rintro ((hx | hx) | hx)
      · exact Or.inl hx
      · exact Or.inr (by rw [hx]; exact List.mem_cons_self d t)
      · exact Or.inr (List.mem_cons_of_mem d hx)
    · rintro (hx | hx)
      · exact Or.inl (Or.inl hx)
      · rcases List.mem_cons.mp hx with rfl | hx
        · exact Or.inl (Or.inr rfl)
        · exact Or.inr hx

theorem memA_addAllA (ds l : List String) (x : String) :
    memA (addAllA l ds) x = true ↔ (x ∈ l ∨ x ∈ ds) := by
  rw [memA_iff, mem_addAllA]

theorem mkdirParents_files {fs : FS} {d : String} {fs' : FS}
    (h : mkdirParents fs d = Except.ok fs') : fs'.files = fs.files := by
  unfold mkdirParents at h
  by_cases hc : (dirsToMake d).any (fun a => (lookupFile fs a).isSome) = true
  · rw [if_pos hc] at h
    cases h
  · rw [if_neg hc] at h
    cases h
    rfl

theorem mkdirParents_dirs {fs : FS} {d : String} {fs' : FS}
    (h : mkdirParents fs d = Except.ok fs') :
    fs'.dirs = addAllA fs.dirs (dirsToMake d) := by
  unfold mkdirParents at h
  by_cases hc : (dirsToMake d).any (fun a => (lookupFile fs a).isSome) = true
  · rw [if_pos hc] at h
    cases h
  · rw [if_neg hc] at h
    cases h
    rfl

/-! ## The `.py → _rustified.rs` rename at the character level -/

/-- The character-level action of line 90's
`.replace(".py", "_rustified.rs")`. -/
def pyRename (c : List Char) : List Char :=
  replAux '.' ['p', 'y'] "_rustified.rs".data c

theorem strReplace_py (s : String) :
    strReplace s ".py" "_rustified.rs" = String.mk (pyRename s.data) := rfl

theorem writtenPathOf_data (repo out p : String) :
    (writtenPathOf repo out p).data = pyRename (outputPathOf repo out p).data := rfl

/-- Componentwise characterization of the rename: `splitSlash` commutes
with it, so the number of path segments (nesting depth) is preserved. -/
theorem splitSlash_pyRename (s : List Char) :
    splitSlash (pyRename s) = (splitSlash s).map pyRename :=
  splitSlash_replAux (by decide) (by decide) s

/-- Segments without a `.py` occurrence are untouched by the rename. -/
theorem pyRename_of_no_py {c : List Char}
    (h : hasOcc ['.', 'p', 'y'] c = false) : pyRename c = c :=
  replAux_of_not_hasOcc h

/-! ## Supporting lemmas for the path-mapping claims -/

theorem commonPreLen_lt {a b : List (List Char)}
    (h : isPre a b = false) : commonPreLen a b < a.length := by
  induction a generalizing b with
  | nil => simp [isPre] at h
  | cons x xs ih =>
    cases b with
    | nil =>
      show commonPreLen (x :: xs) [] < _
      simp [commonPreLen]
    | cons y ys =>
      show (if x = y then commonPreLen xs ys + 1 else 0) < _
      by_cases hxy : x = y
      · rw [if_pos hxy]
        subst hxy
        have hpre : isPre xs ys = false := by
          cases hx : isPre xs ys with
          | false => rfl
          | true =>
            rw [show isPre (x :: xs) (x :: ys) = (x = x && isPre xs ys) from rfl,
              hx] at h
            simp at h
        have := ih hpre
        simp only [List.length_cons]
        omega
      · rw [if_neg hxy]
        simp

theorem joinSlash_head {c : List Char} (t : List (List Char)) (hc : c ≠ []) :
    (joinSlash (c :: t)).head? = c.head? := by
  cases t with
  | nil => rfl
  | cons c' t' =>
    cases c with
    | nil => exact absurd rfl hc
    | cons x xs => rfl

theorem strData_append (a b : String) : (a ++ b).data = a.data ++ b.data := rfl

/-! ## Claim C1 -/

/-- **C1, counterexample.**  The claim says the output path is obtained by
rewriting only the *trailing* `.py` extension, every intermediate directory
segment of the relative path appearing unchanged.  The source instead
applies `output_file_path.replace(".py", "_rustified.rs")` to the whole
joined path (line 90), so for input root `/a`, output root `/b` and file
`/a/d.py/f.py` the directory segment `d.py` is rewritten too: the code
yields `/b/d_rustified.rs/f_rustified.rs`, not the claimed
`/b/d.py/f_rustified.rs`. -/
theorem c1_counterexample :
    writtenPathOf "/a" "/b" "/a/d.py/f.py" = "/b/d_rustified.rs/f_rustified.rs"
      ∧ writtenPathOf "/a" "/b" "/a/d.py/f.py" ≠ "/b/d.py/f_rustified.rs" := by
  constructor
  · decide
  · decide

/-- **C1, amended.**  The output path is obtained from
`join(outputRoot, relpath)` by applying the `.py → _rustified.rs` rewrite
to *every* path segment (`splitSlash` of the written path is the segmentwise
rename of the segments of the joined path); consequently directory nesting
depth is preserved exactly, and every segment — intermediate or final —
that contains no `.py` occurrence appears unchanged.  Only the claim's
restriction of the rewrite to the trailing extension is dropped. -/
theorem c1_amended_thm (repo out p : String) :
    splitSlash (writtenPathOf repo out p).data
        = (splitSlash (outputPathOf repo out p).data).map pyRename
      ∧ (splitSlash (writtenPathOf repo out p).data).length
          = (splitSlash (outputPathOf repo out p).data).length
      ∧ (∀ c, hasOcc ['.', 'p', 'y'] c = false → pyRename c = c) := by
  refine ⟨?_, ?_, ?_⟩
  · rw [writtenPathOf_data, splitSlash_pyRename]
  · rw [writtenPathOf_data, splitSlash_pyRename, List.length_map]
  · exact fun c hc => pyRename_of_no_py hc

/-- **C1, witness.**  The amended claim at a concrete input: for
`/a/x/f.py` the segments map through the rename, and the `.py`-free
segment `x` is untouched. -/
theorem c1_amended_wit :
    splitSlash (writtenPathOf "/a" "/b" "/a/x/f.py").data
        = (splitSlash (outputPathOf "/a" "/b" "/a/x/f.py").data).map pyRename
      ∧ pyRename ['x'] = ['x'] :=
  ⟨(c1_amended_thm "/a" "/b" "/a/x/f.py").1,
    (c1_amended_thm "/a" "/b" "/a/x/f.py").2.2 ['x'] (by decide)⟩

/-! ## Claim C3 -/

/-- **C3.**  If the input root does not exist, `main` raises
`FileNotFoundError` before doing anything: the returned state is exactly
the initial state (zero files written, zero directories created, nothing
printed), and the result does not depend on the transformation capability
at all — it is never invoked. -/
theorem c3_thm (cap : String → Except String String) (st : PyState)
    (h : pathExistsFS st.fs repoPathConst = false) :
    mainRun cap st = (st, some (PyError.fileNotFound repoPathConst))
      ∧ (∀ cap' : String → Except String String, mainRun cap st = mainRun cap' st) := by
  constructor
  · unfold mainRun
    rw [if_pos h]
  · intro cap'
    unfold mainRun
    rw [if_pos h, if_pos h]

/-- **C3, witness.**  On an empty filesystem `./swarms-master` does not
exist and the run fails with the unchanged state. -/
theorem c3_wit :
    pathExistsFS (FS.mk [] []) repoPathConst = false
      ∧ mainRun (fun _ => Except.ok "RUST") { fs := FS.mk [] [], log := [] }
          = ({ fs := FS.mk [] [], log := [] },
              some (PyError.fileNotFound repoPathConst)) :=
  ⟨by decide, (c3_thm (fun _ => Except.ok "RUST")
      { fs := FS.mk [] [], log := [] } (by decide)).1⟩

/-! ## Claim C6 -/

theorem relpath_eq (p start : String)
    (h : List.replicate ((compsF start).length
          - commonPreLen (compsF start) (compsF p)) ['.', '.']
        ++ (compsF p).drop (commonPreLen (compsF start) (compsF p)) ≠ []) :
    relpath p start = String.mk (joinSlash
      (List.replicate ((compsF start).length
          - commonPreLen (compsF start) (compsF p)) ['.', '.']
        ++ (compsF p).drop (commonPreLen (compsF start) (compsF p)))) := by
  show (if List.replicate ((compsF start).length
          - commonPreLen (compsF start) (compsF p)) ['.', '.']
        ++ (compsF p).drop (commonPreLen (compsF start) (compsF p))
        = ([] : List (List Char)) then "." else _) = _
  rw [if_neg h]

theorem pathJoin_classic (a b : String) (hb : ¬ b.data.head? = some '/')
    (ha : ¬ a = "") (hal : ¬ a.data.getLast? = some '/') :
    pathJoin a b = a ++ "/" ++ b := by
  unfold pathJoin
  rw [if_neg hb, if_neg ha, if_neg hal]

/-- **C6, counterexample.**  The claim says the path mapping fails with a
`PathError` whenever the file is not a descendant of the input root and
never returns an output path for such inputs.  The source has no such
check: `os.path.relpath` happily produces `..` segments, and the mapping
returns an ordinary path.  With input root `/a`, output root `/o` and the
non-descendant `/q/f.py` the mapping returns `/o/../q/f_rustified.rs`. -/
theorem c6_counterexample :
    writtenPathOf "/a" "/o" "/q/f.py" = "/o/../q/f_rustified.rs" := by
  decide

/-- **C6, amended.**  The path mapping is total and never fails: for a
file path that is not a descendant of the input root (its components do
not extend the root's components) it still returns an output path, one
containing a `..` segment that escapes the output root.  (Stated for a
nonempty output root with no trailing slash, the shape the pipeline always
passes.) -/
theorem c6_amended_thm (repo out p : String)
    (hnd : isPre (compsF repo) (compsF p) = false)
    (hout : ¬ out = "") (hsl : ¬ out.data.getLast? = some '/') :
    ['.', '.'] ∈ splitSlash (writtenPathOf repo out p).data := by
  have hi : commonPreLen (compsF repo) (compsF p) < (compsF repo).length :=
    commonPreLen_lt hnd
  obtain ⟨k, hk⟩ : ∃ k, (compsF repo).length
      - commonPreLen (compsF repo) (compsF p) = k + 1 :=
    ⟨(compsF repo).length - commonPreLen (compsF repo) (compsF p) - 1, by omega⟩
  have hrelcons :
      List.replicate ((compsF repo).length
          - commonPreLen (compsF repo) (compsF p)) ['.', '.']
        ++ (compsF p).drop (commonPreLen (compsF repo) (compsF p))
      = ['.', '.'] :: (List.replicate k ['.', '.']
        ++ (compsF p).drop (commonPreLen (compsF repo) (compsF p))) := by
    rw [hk, List.replicate_succ]
    rfl
  have hrelne :
      List.replicate ((compsF repo).length
          - commonPreLen (compsF repo) (compsF p)) ['.', '.']
        ++ (compsF p).drop (commonPreLen (compsF repo) (compsF p)) ≠ [] := by
    rw [hrelcons]
    simp
  have hfree : ∀ c ∈ List.replicate ((compsF repo).length
          - commonPreLen (compsF repo) (compsF p)) ['.', '.']
        ++ (compsF p).drop (commonPreLen (compsF repo) (compsF p)),
      ('/' : Char) ∉ c := by
    intro c hc
    rcases List.mem_append.mp hc with hc | hc
    · rw [(List.mem_replicate.mp hc).2]
      decide
    · have hmem : c ∈ compsF p := List.mem_of_mem_drop hc
      have : c ∈ splitSlash p.data := List.mem_of_mem_filter hmem
      exact splitSlash_no_slash p.data c this
  have hrelpath := relpath_eq p repo hrelne
  have hhead : (String.mk (joinSlash
      (List.replicate ((compsF repo).length
          - commonPreLen (compsF repo) (compsF p)) ['.', '.']
        ++ (compsF p).drop (commonPreLen (compsF repo) (compsF p))))).data.head?
      = some '.' := by
    show (joinSlash _).head? = _
    rw [hrelcons, joinSlash_head _ (by simp)]
    rfl
  have hjoin : outputPathOf repo out p
      = out ++ "/" ++ relpath p repo := by
    apply pathJoin_classic
    · rw [hrelpath, hhead]
      simp
    · exact hout
    · exact hsl
  have hdata : (outputPathOf repo out p).data
      = out.data ++ '/' :: (joinSlash
        (List.replicate ((compsF repo).length
            - commonPreLen (compsF repo) (compsF p)) ['.', '.']
          ++ (compsF p).drop (commonPreLen (compsF repo) (compsF p)))) := by
    rw [hjoin, hrelpath]
    show (out.data ++ ['/']) ++ _ = _
    simp
  have hsplit : splitSlash (outputPathOf repo out p).data
      = splitSlash out.data
        ++ (List.replicate ((compsF repo).length
            - commonPreLen (compsF repo) (compsF p)) ['.', '.']
          ++ (compsF p).drop (commonPreLen (compsF repo) (compsF p))) := by
    rw [hdata, splitSlash_append_slash, splitSlash_joinSlash _ hrelne hfree]
  have hmem : ['.', '.'] ∈ splitSlash (outputPathOf repo out p).data := by
    rw [hsplit, hrelcons]
    exact List.mem_append_right _ (List.mem_cons_self _ _)
  rw [writtenPathOf_data, splitSlash_pyRename]
  have : pyRename ['.', '.'] = ['.', '.'] := by decide
  exact this ▸ List.mem_map_of_mem pyRename hmem

/-- **C6, witness.**  The amended claim at the concrete non-descendant
input of the counterexample. -/
theorem c6_amended_wit :
    ['.', '.'] ∈ splitSlash (writtenPathOf "/a" "/o" "/q/f.py").data :=
  c6_amended_thm "/a" "/o" "/q/f.py" (by decide) (by decide) (by decide)

/-! ## Characterizations of one traversal iteration -/

/-- An ineligible file is skipped with no effect whatsoever (line 56). -/
theorem traverse_step_skip (cap : String → Except String String)
    (repo out : String) (st : PyState) (p : String)
    (h : eligibleFile p = false) :
    traverse_step cap repo out st p = (st, none) := by
  unfold traverse_step
  rw [if_pos h]

/-- Unfolding of the loop body on an eligible file. -/
theorem traverse_step_elig (cap : String → Except String String)
    (repo out : String) (st : PyState) (p : String)
    (helig : eligibleFile p = true) :
    traverse_step cap repo out st p =
      match mkdirParents st.fs (parentDir (outputPathOf repo out p)) with
      | Except.error e => (pushLog st ("Processing file: " ++ p), some e)
      | Except.ok fs2 =>
        match process_file cap
            { fs := fs2, log := st.log ++ ["Processing file: " ++ p] }
            p (outputPathOf repo out p) with
        | (st3, none) => (st3, none)
        | (st3, some e) =>
          (pushLog st3 ("Error processing " ++ p ++ ": " ++ errMsg e), none) := by
  unfold traverse_step
  rw [if_neg (by simp [helig])]
  rfl

theorem writeFile_ok {fs : FS} {p c : String} {fs' : FS}
    (h : writeFile fs p c = Except.ok fs') :
    fs'.files = updateA fs.files p c ∧ fs'.dirs = fs.dirs := by
  unfold writeFile at h
  by_cases h1 : memA fs.dirs p = true
  · rw [if_pos h1] at h
    cases h
  · rw [if_neg h1] at h
    by_cases h2 : dirExists fs (parentDir p) = true
    · rw [if_pos h2] at h
      cases h
      exact ⟨rfl, rfl⟩
    · rw [if_neg h2] at h
      cases h

/-- `process_file` can only change the file at the rewritten output path;
everything else on disk is untouched, whatever happens. -/
theorem process_file_files (cap : String → Except String String)
    (st : PyState) (fp op q : String)
    (h : lookupFile (process_file cap st fp op).1.fs q ≠ lookupFile st.fs q) :
    q = strReplace op ".py" "_rustified.rs" := by
  unfold process_file at h
  split at h
  · exact absurd rfl h
  · split at h
    · exact absurd rfl h
    · dsimp only at h
      split at h
      · exact absurd rfl h
      · rename_i fs2 hw
        by_cases hq : q = strReplace op ".py" "_rustified.rs"
        · exact hq
        · exfalso
          apply h
          show lookupA fs2.files q = lookupA st.fs.files q
          rw [(writeFile_ok hw).1, lookupA_updateA, if_neg (fun hx => hq hx.symm)]
          rfl

/-- Any on-disk file change made by one loop iteration is at the rewritten
output path of an eligible file. -/
theorem traverse_step_files (cap : String → Except String String)
    (repo out : String) (st : PyState) (p q : String)
    (h : lookupFile (traverse_step cap repo out st p).1.fs q
      ≠ lookupFile st.fs q) :
    eligibleFile p = true ∧ q = writtenPathOf repo out p := by
  by_cases helig : eligibleFile p = true
  · refine ⟨helig, ?_⟩
    rw [traverse_step_elig cap repo out st p helig] at h
    split at h
    · exact absurd rfl h
    · rename_i fs2 hmk
      split at h
      · rename_i st3 hpf
        by_cases hq : lookupFile st3.fs q = lookupFile fs2 q
        · exfalso
          apply h
          show lookupFile st3.fs q = lookupFile st.fs q
          rw [hq]
          show lookupA fs2.files q = lookupA st.fs.files q
          rw [mkdirParents_files hmk]
        · exact process_file_files cap
            { fs := fs2, log := st.log ++ ["Processing file: " ++ p] }
            p (outputPathOf repo out p) q (by rw [hpf]; exact hq)
      · rename_i st3 e hpf
        by_cases hq : lookupFile st3.fs q = lookupFile fs2 q
        · exfalso
          apply h
          show lookupFile st3.fs q = lookupFile st.fs q
          rw [hq]
          show lookupA fs2.files q = lookupA st.fs.files q
          rw [mkdirParents_files hmk]
        · exact process_file_files cap
            { fs := fs2, log := st.log ++ ["Processing file: " ++ p] }
            p (outputPathOf repo out p) q (by rw [hpf]; exact hq)
  · have hne : eligibleFile p = false := by
      cases hx : eligibleFile p with
      | false => rfl
      | true => exact absurd hx helig
    rw [traverse_step_skip cap repo out st p hne] at h
    exact absurd rfl h

/-- Fold version: any file change made by the whole loop is at the
rewritten output path of some eligible discovered file. -/
theorem runFiles_files (cap : String → Except String String)
    (repo out : String) :
    ∀ (L : List String) (st : PyState) (q : String),
      lookupFile (runFiles cap repo out L st).1.fs q ≠ lookupFile st.fs q →
      ∃ p, p ∈ L ∧ eligibleFile p = true ∧ q = writtenPathOf repo out p := by
  intro L
  induction L with
  | nil => intro st q h; exact absurd rfl h
  | cons p t ih =>
    intro st q h
    cases hstep : traverse_step cap repo out st p with
    | mk st' e =>
      cases e with
      | none =>
        have hrun : runFiles cap repo out (p :: t) st
            = runFiles cap repo out t st' := by
          show (match traverse_step cap repo out st p with
            | (st'', none) => runFiles cap repo out t st''
            | (st'', some e) => (st'', some e)) = _
          rw [hstep]
        rw [hrun] at h
        by_cases hq : lookupFile st'.fs q = lookupFile st.fs q
        · rcases ih st' q (fun hx => h (by rw [hx, hq])) with ⟨p', hp', he', hq'⟩
          exact ⟨p', List.mem_cons_of_mem p hp', he', hq'⟩
        · have := traverse_step_files cap repo out st p q (by rw [hstep]; exact hq)
          exact ⟨p, List.mem_cons_self p t, this.1, this.2⟩
      | some e =>
        have hrun : runFiles cap repo out (p :: t) st = (st', some e) := by
          show (match traverse_step cap repo out st p with
            | (st'', none) => runFiles cap repo out t st''
            | (st'', some e) => (st'', some e)) = _
          rw [hstep]
        rw [hrun] at h
        have := traverse_step_files cap repo out st p q (by rw [hstep]; exact h)
        exact ⟨p, List.mem_cons_self p t, this.1, this.2⟩

/-! ## Claim C4 -/

/-- **C4.**  Eligibility filtering: (i) an ineligible file (its name does
not end in `.py`) is skipped with *no* effect — no state change, no log
line, no error — and the iteration's result does not depend on the
transformation capability at all, so the capability is never invoked for
it; (ii) every output file produced by a run (any change to the file
listing) is the path-mapped image of some eligible discovered input file:
the outputs are a subset of the eligible inputs mapped through the path
mapping. -/
theorem c4_thm :
    (∀ (cap cap' : String → Except String String) (repo out : String)
        (st : PyState) (p : String), eligibleFile p = false →
        traverse_step cap repo out st p = (st, none)
          ∧ traverse_step cap repo out st p = traverse_step cap' repo out st p)
      ∧ (∀ (cap : String → Except String String) (repo out : String)
          (st : PyState) (q : String),
          lookupFile (traverse_repo cap repo out st).1.fs q
            ≠ lookupFile st.fs q →
          ∃ p, p ∈ walkFiles st.fs repo ∧ eligibleFile p = true
            ∧ q = writtenPathOf repo out p) := by
  constructor
  · intro cap cap' repo out st p h
    rw [traverse_step_skip cap repo out st p h,
      traverse_step_skip cap' repo out st p h]
    exact ⟨rfl, rfl⟩
  · intro cap repo out st q h
    exact runFiles_files cap repo out (walkFiles st.fs repo) st q h

/-- **C4, witness.**  The skip part at the concrete ineligible file
`bar.txt`, and the subset part vacuously checked on a no-op run. -/
theorem c4_wit :
    traverse_step (fun _ => Except.ok "RUST") "/a" "/b"
        { fs := FS.mk [("/a/bar.txt", "text")] ["/", "/a"], log := [] }
        "/a/bar.txt"
      = ({ fs := FS.mk [("/a/bar.txt", "text")] ["/", "/a"], log := [] }, none) :=
  ((c4_thm.1 (fun _ => Except.ok "RUST") (fun _ => Except.error "e") "/a" "/b"
    { fs := FS.mk [("/a/bar.txt", "text")] ["/", "/a"], log := [] }
    "/a/bar.txt" (by decide)).1)

/-! ## Claim C2 -/

/-- The three-file scenario of the spec: `f2`'s transformation fails. -/
def fsC2 : FS :=
  { files := [("/a/f1.py", "c1"), ("/a/f2.py", "c2"), ("/a/f3.py", "c3")],
    dirs := ["/", "/a"] }

def capC2 : String → Except String String :=
  fun s => if s = promptFor "c2" then Except.error "boom" else Except.ok "RUST"

def runC2 : PyState × Option PyError :=
  traverse_repo capC2 "/a" "/b" { fs := fsC2, log := [] }

/-- **C2.**  Errors raised inside `process_file` — reading, transforming,
or writing a single file — are caught at the per-file boundary: the
iteration returns no error (nothing propagates), appends an
`Error processing …` record to the log, and the loop continues with the
remaining files.  In the spec's three-file scenario where only the second
file's transformation fails, the run completes without error, writes the
outputs of the first and third files, writes nothing for the second, and
records its failure. -/
theorem c2_thm :
    (∀ (cap : String → Except String String) (repo out : String)
        (st : PyState) (p : String) (fs2 : FS) (st' : PyState) (e : PyError),
        eligibleFile p = true →
        mkdirParents st.fs (parentDir (outputPathOf repo out p))
          = Except.ok fs2 →
        process_file cap
            { fs := fs2, log := st.log ++ ["Processing file: " ++ p] }
            p (outputPathOf repo out p) = (st', some e) →
        traverse_step cap repo out st p
            = (pushLog st' ("Error processing " ++ p ++ ": " ++ errMsg e), none)
          ∧ ∀ t, runFiles cap repo out (p :: t) st
              = runFiles cap repo out t
                  (pushLog st' ("Error processing " ++ p ++ ": " ++ errMsg e)))
      ∧ runC2.2 = none
      ∧ lookupFile runC2.1.fs "/b/f1_rustified.rs" = some "RUST"
      ∧ lookupFile runC2.1.fs "/b/f3_rustified.rs" = some "RUST"
      ∧ lookupFile runC2.1.fs "/b/f2_rustified.rs" = none
      ∧ "Error processing /a/f2.py: boom" ∈ runC2.1.log := by
  refine ⟨?_, by decide, by decide, by decide, by decide, by decide⟩
  intro cap repo out st p fs2 st' e helig hmk hpf
  have hstep : traverse_step cap repo out st p
      = (pushLog st' ("Error processing " ++ p ++ ": " ++ errMsg e), none) := by
    rw [traverse_step_elig cap repo out st p helig, hmk]
    dsimp only
    rw [hpf]
  refine ⟨hstep, fun t => ?_⟩
  show (match traverse_step cap repo out st p with
    | (st'', none) => runFiles cap repo out t st''
    | (st'', some e) => (st'', some e)) = _
  rw [hstep]

/-- **C2, witness.**  The boundary property applied at the failing second
file of the scenario. -/
theorem c2_wit :
    traverse_step capC2 "/a" "/b" { fs := fsC2, log := [] } "/a/f2.py"
      = (pushLog
          { fs := FS.mk fsC2.files ["/", "/a", "/b"],
            log := ["Processing file: /a/f2.py"] }
          ("Error processing " ++ "/a/f2.py" ++ ": "
            ++ errMsg (PyError.capError "boom")), none) :=
  (c2_thm.1 capC2 "/a" "/b" { fs := fsC2, log := [] } "/a/f2.py"
    (FS.mk fsC2.files ["/", "/a", "/b"])
    { fs := FS.mk fsC2.files ["/", "/a", "/b"],
      log := ["Processing file: /a/f2.py"] }
    (PyError.capError "boom") (by decide) (by decide) (by decide)).1

/-! ## Claim C9 -/

/-- **C9.**  The `Path(...).mkdir` call sits *outside* the per-file
`try` (lines 61–62 vs 65–68): when directory creation raises, the
iteration returns the error itself — the loop, and with it the whole run,
aborts at that file, later files are never examined — and no
`Error processing …` record is written: the returned state's log holds
nothing beyond the progress line. -/
theorem c9_thm (cap : String → Except String String) (repo out : String)
    (st : PyState) (p : String) (e : PyError)
    (helig : eligibleFile p = true)
    (hmk : mkdirParents st.fs (parentDir (outputPathOf repo out p))
      = Except.error e) :
    traverse_step cap repo out st p
        = (pushLog st ("Processing file: " ++ p), some e)
      ∧ (∀ t, runFiles cap repo out (p :: t) st
          = (pushLog st ("Processing file: " ++ p), some e))
      ∧ (∀ l ∈ (pushLog st ("Processing file: " ++ p)).log,
          l ∈ st.log ∨ l = "Processing file: " ++ p) := by
  have hstep : traverse_step cap repo out st p
      = (pushLog st ("Processing file: " ++ p), some e) := by
    rw [traverse_step_elig cap repo out st p helig, hmk]
  refine ⟨hstep, fun t => ?_, ?_⟩
  · show (match traverse_step cap repo out st p with
      | (st'', none) => runFiles cap repo out t st''
      | (st'', some e) => (st'', some e)) = _
    rw [hstep]
  · intro l hl
    rcases List.mem_append.mp hl with hl | hl
    · exact Or.inl hl
    · exact Or.inr (List.mem_singleton.mp hl)

/-- The directory-blocked scenario: the output parent `/b/x` of the first
eligible file already exists as a regular file, so its `mkdir` raises. -/
def fsC9 : FS :=
  { files := [("/a/x/f.py", "cf"), ("/a/y/g.py", "cg"), ("/b/x", "junk")],
    dirs := ["/", "/a", "/a/x", "/a/y", "/b"] }

def capOk : String → Except String String := fun _ => Except.ok "RUST"

/-- **C9, witness.**  In the blocked scenario the whole run aborts with
the propagated `FileExistsError`; the second eligible file is never
processed and no failure record is logged. -/
theorem c9_wit :
    traverse_repo capOk "/a" "/b" { fs := fsC9, log := [] }
      = (pushLog { fs := fsC9, log := [] } ("Processing file: " ++ "/a/x/f.py"),
          some (PyError.fileExists "/b/x")) :=
  (c9_thm capOk "/a" "/b" { fs := fsC9, log := [] } "/a/x/f.py"
    (PyError.fileExists "/b/x") (by decide) (by decide)).2.1 ["/a/y/g.py"]

/-! ## Directory creation establishes the created directory -/

theorem pdirComps_props (s : String) :
    ∀ c ∈ pdirComps s, ¬ c = [] ∧ ¬ c = ['.'] ∧ ('/' : Char) ∉ c := by
  intro c hc
  have hmem := List.mem_of_mem_filter hc
  have hp := List.of_mem_filter hc
  simp only [decide_not, Bool.not_eq_true'] at hp
  refine ⟨?_, ?_, splitSlash_no_slash s.data c hmem⟩
  · intro hx
    rw [show (decide (c = [] ∨ c = ['.']) = false)
      ↔ ¬ (c = [] ∨ c = ['.']) from by simp] at hp
    exact hp (Or.inl hx)
  · intro hx
    rw [show (decide (c = [] ∨ c = ['.']) = false)
      ↔ ¬ (c = [] ∨ c = ['.']) from by simp] at hp
    exact hp (Or.inr hx)

theorem pdirComps_mkPath (abs : Bool) (cs : List (List Char)) (hne : cs ≠ [])
    (hprops : ∀ c ∈ cs, ¬ c = [] ∧ ¬ c = ['.'] ∧ ('/' : Char) ∉ c) :
    pdirComps (mkPath abs cs) = cs := by
  have hfree : ∀ c ∈ cs, ('/' : Char) ∉ c := fun c hc => (hprops c hc).2.2
  have hfilter : List.filter (fun c => ¬ (c = [] ∨ c = ['.'])) cs = cs := by
    apply List.filter_eq_self.mpr
    intro c hc
    simp only [decide_eq_true_eq]
    rintro (hx | hx)
    · exact (hprops c hc).1 hx
    · exact (hprops c hc).2.1 hx
  cases abs with
  | true =>
    show List.filter _ (splitSlash ('/' :: joinSlash cs)) = cs
    rw [show splitSlash ('/' :: joinSlash cs) = [] :: splitSlash (joinSlash cs)
        from by rw [splitSlash, if_pos rfl],
      splitSlash_joinSlash cs hne hfree]
    show List.filter _ ([] :: cs) = cs
    rw [List.filter_cons_of_neg (by simp)]
    exact hfilter
  | false =>
    show List.filter _ (splitSlash (joinSlash cs)) = cs
    rw [splitSlash_joinSlash cs hne hfree]
    exact hfilter

theorem isAbs_mkPath (abs : Bool) (cs : List (List Char)) (hne : cs ≠ [])
    (hprops : ∀ c ∈ cs, ¬ c = [] ∧ ¬ c = ['.'] ∧ ('/' : Char) ∉ c) :
    isAbs (mkPath abs cs) = abs := by
  cases abs with
  | true => rfl
  | false =>
    cases cs with
    | nil => exact absurd rfl hne
    | cons c t =>
      show decide ((joinSlash (c :: t)).head? = some '/') = false
      rw [joinSlash_head t (hprops c (List.mem_cons_self c t)).1]
      cases c with
      | nil => exact absurd rfl (hprops [] (List.mem_cons_self [] t)).1
      | cons x xs =>
        have hx : ¬ x = '/' := fun hx =>
          (hprops (x :: xs) (List.mem_cons_self _ t)).2.2
            (hx ▸ List.mem_cons_self x xs)
        simp [hx]

/-- After a successful `mkdir(parents=True, exist_ok=True)` of
`Path(x).parent`, that parent directory exists. -/
theorem dirExists_parentDir {fs : FS} (x : String) {fs' : FS}
    (h : mkdirParents fs (parentDir x) = Except.ok fs') :
    dirExists fs' (parentDir x) = true := by
  have hdirs := mkdirParents_dirs h
  by_cases hcs : (pdirComps x).dropLast = []
  · unfold parentDir
    rw [hcs]
    cases habs : isAbs x with
    | true =>
      rw [if_pos rfl]
      have hroot : mkPath true [] = "/" := by decide
      rw [hroot]
      simp [dirExists]
    | false =>
      rw [if_neg (by simp), if_pos rfl]
      simp [dirExists]
  · have hprops : ∀ c ∈ (pdirComps x).dropLast,
        ¬ c = [] ∧ ¬ c = ['.'] ∧ ('/' : Char) ∉ c :=
      fun c hc => pdirComps_props x c (List.mem_of_mem_dropLast hc)
    have hparent : parentDir x = mkPath (isAbs x) ((pdirComps x).dropLast) := by
      unfold parentDir
      cases habs : isAbs x with
      | true => rw [if_pos rfl]
      | false => rw [if_neg (by simp), if_neg hcs]
    have hpd : pdirComps (parentDir x) = (pdirComps x).dropLast := by
      rw [hparent]
      exact pdirComps_mkPath _ _ hcs hprops
    have habs2 : isAbs (parentDir x) = isAbs x := by
      rw [hparent]
      exact isAbs_mkPath _ _ hcs hprops
    have hmem : parentDir x ∈ dirsToMake (parentDir x) := by
      unfold dirsToMake
      rw [hpd, habs2]
      apply List.mem_map.mpr
      refine ⟨(pdirComps x).dropLast.length - 1, ?_, ?_⟩
      · apply List.mem_range.mpr
        have : (pdirComps x).dropLast.length ≠ 0 := by
          intro hx
          exact hcs (List.eq_nil_of_length_eq_zero hx)
        omega
      · have hlen : (pdirComps x).dropLast.length - 1 + 1
            = (pdirComps x).dropLast.length := by
          have : (pdirComps x).dropLast.length ≠ 0 := by
            intro hx
            exact hcs (List.eq_nil_of_length_eq_zero hx)
          omega
        rw [hlen, List.take_length, hparent]
    have : memA fs'.dirs (parentDir x) = true := by
      rw [hdirs]
      exact (memA_addAllA _ _ _).mpr (Or.inr hmem)
    unfold dirExists
    rw [this]
    rfl

/-! ## Claim C10 -/

/-- When the read or the capability call fails, `process_file` raises
without touching the filesystem: the output file is opened only after the
capability returns successfully. -/
theorem process_file_fails (cap : String → Except String String)
    (st : PyState) (fp op : String)
    (hfail : lookupFile st.fs fp = none
      ∨ ∃ content m, lookupFile st.fs fp = some content
          ∧ cap (promptFor content) = Except.error m) :
    ∃ e, process_file cap st fp op = (st, some e) := by
  unfold process_file
  rcases hfail with h | ⟨content, m, hc, hm⟩
  · rw [h]
    exact ⟨PyError.fileNotFound fp, rfl⟩
  · rw [hc]
    dsimp only
    rw [hm]
    exact ⟨PyError.capError m, rfl⟩

/-- **C10.**  For an eligible file whose read or transformation fails, no
output file is created — the file listing after the iteration is exactly
the one before, and the iteration ends without propagating an error — but
the computed output parent directory has already been created as a side
effect before the failure (it exists in the resulting state). -/
theorem c10_thm (cap : String → Except String String) (repo out : String)
    (st : PyState) (p : String) (fs2 : FS)
    (helig : eligibleFile p = true)
    (hmk : mkdirParents st.fs (parentDir (outputPathOf repo out p))
      = Except.ok fs2)
    (hfail : lookupFile fs2 p = none
      ∨ ∃ content m, lookupFile fs2 p = some content
          ∧ cap (promptFor content) = Except.error m) :
    (traverse_step cap repo out st p).1.fs.files = st.fs.files
      ∧ (traverse_step cap repo out st p).2 = none
      ∧ dirExists (traverse_step cap repo out st p).1.fs
          (parentDir (outputPathOf repo out p)) = true := by
  obtain ⟨e, hpf⟩ := process_file_fails cap
    { fs := fs2, log := st.log ++ ["Processing file: " ++ p] }
    p (outputPathOf repo out p) hfail
  have hstep : traverse_step cap repo out st p
      = (pushLog { fs := fs2, log := st.log ++ ["Processing file: " ++ p] }
          ("Error processing " ++ p ++ ": " ++ errMsg e), none) := by
    rw [traverse_step_elig cap repo out st p helig, hmk]
    dsimp only
    rw [hpf]
  rw [hstep]
  refine ⟨?_, rfl, ?_⟩
  · show fs2.files = st.fs.files
    exact mkdirParents_files hmk
  · show dirExists fs2 (parentDir (outputPathOf repo out p)) = true
    exact dirExists_parentDir _ hmk

/-- A capability that always fails (e.g. quota exhausted). -/
def capErr : String → Except String String := fun _ => Except.error "quota"

def stC10 : PyState :=
  { fs := FS.mk [("/a/x/f.py", "cf")] ["/", "/a", "/a/x"], log := [] }

/-- **C10, witness.**  On a concrete file whose transformation fails, the
file listing is unchanged, nothing propagates, and the output parent
directory was nevertheless created. -/
theorem c10_wit :
    (traverse_step capErr "/a" "/b" stC10 "/a/x/f.py").1.fs.files
        = stC10.fs.files
      ∧ (traverse_step capErr "/a" "/b" stC10 "/a/x/f.py").2 = none
      ∧ dirExists (traverse_step capErr "/a" "/b" stC10 "/a/x/f.py").1.fs
          (parentDir (outputPathOf "/a" "/b" "/a/x/f.py")) = true :=
  c10_thm capErr "/a" "/b" stC10 "/a/x/f.py"
    (FS.mk [("/a/x/f.py", "cf")] ["/", "/a", "/a/x", "/b", "/b/x"])
    (by decide) (by decide)
    (Or.inr ⟨"cf", "quota", by decide, by decide⟩)

/-! ## Claim C7 -/

/-- A file in a directory whose name contains `.py`: the directory created
before the write differs from the written path's parent. -/
def fsC7 : FS :=
  { files := [("/a/d.py/x.py", "cx")], dirs := ["/", "/a", "/a/d.py"] }

def runC7 : PyState × Option PyError :=
  traverse_repo capOk "/a" "/b" { fs := fsC7, log := [] }

/-- **C7, counterexample.**  The claim says the parent directory of the
path actually written exists before the write, so no write ever fails for
a missing parent.  But line 62 creates the parent of the *pre-rewrite*
path (`/b/d.py`) while line 91 writes to the *rewritten* path
(`/b/d_rustified.rs/x_rustified.rs`), whose parent was never created: the
write fails with `FileNotFoundError` (recorded as the file's failure), no
output is produced, and `/b/d_rustified.rs` indeed does not exist while
`/b/d.py` does. -/
theorem c7_counterexample :
    runC7.2 = none
      ∧ lookupFile runC7.1.fs "/b/d_rustified.rs/x_rustified.rs" = none
      ∧ runC7.1.fs.files = fsC7.files
      ∧ memA runC7.1.fs.dirs "/b/d.py" = true
      ∧ memA runC7.1.fs.dirs "/b/d_rustified.rs" = false
      ∧ ("Error processing /a/d.py/x.py: "
          ++ errMsg (PyError.fileNotFound "/b/d_rustified.rs/x_rustified.rs"))
          ∈ runC7.1.log := by
  exact ⟨by decide, by decide, by decide, by decide, by decide, by decide⟩

theorem pyRename_eq_nil_iff (c : List Char) : pyRename c = [] ↔ c = [] := by
  constructor
  · intro h
    by_contra hne
    exact replAux_ne_nil (by decide) hne h
  · intro h
    rw [h]
    rfl

theorem pyRename_eq_dot_iff (c : List Char) : pyRename c = ['.'] ↔ c = ['.'] := by
  constructor
  · intro h
    have hshort : (pyRename c).length < ("_rustified.rs".data).length := by
      rw [h]
      decide
    have := @replAux_short '.' ['p', 'y'] "_rustified.rs".data c hshort
    rw [show pyRename c = replAux '.' ['p', 'y'] "_rustified.rs".data c from rfl,
      this] at h
    exact h
  · intro h
    rw [h]
    decide

theorem filter_map_of_same {α : Type} (P : α → Bool) (f : α → α)
    (h : ∀ a, P (f a) = P a) :
    ∀ l : List α, List.filter P (l.map f) = (List.filter P l).map f := by
  intro l
  induction l with
  | nil => rfl
  | cons c t ih =>
    rw [List.map_cons, List.filter_cons, List.filter_cons, h c]
    cases hc : P c with
    | true => simp [ih]
    | false => simp [ih]

theorem filter_map_pyRename (l : List (List Char)) :
    List.filter (fun c => ¬ (c = [] ∨ c = ['.'])) (l.map pyRename)
      = (List.filter (fun c => ¬ (c = [] ∨ c = ['.'])) l).map pyRename := by
  apply filter_map_of_same
  intro a
  apply decide_eq_decide.mpr
  constructor
  · intro hx hy
    apply hx
    rcases hy with hy | hy
    · exact Or.inl ((pyRename_eq_nil_iff a).mpr hy)
    · exact Or.inr ((pyRename_eq_dot_iff a).mpr hy)
  · intro hx hy
    apply hx
    rcases hy with hy | hy
    · exact Or.inl ((pyRename_eq_nil_iff a).mp hy)
    · exact Or.inr ((pyRename_eq_dot_iff a).mp hy)

theorem map_dropLast_comm {α β : Type} (f : α → β) :
    ∀ l : List α, (l.map f).dropLast = l.dropLast.map f
  | [] => rfl
  | [_] => rfl
  | x :: y :: t => by
    have ih := map_dropLast_comm f (y :: t)
    show (f x :: ((y :: t).map f)).dropLast = ((x :: y :: t).dropLast).map f
    rw [show (y :: t).map f = f y :: t.map f from rfl] at ih ⊢
    rw [List.dropLast_cons₂, List.dropLast_cons₂, List.map_cons, ih]

theorem pyRename_head_slash (s : List Char) :
    ((pyRename s).head? = some '/') ↔ (s.head? = some '/') := by
  cases s with
  | nil => rfl
  | cons c cs =>
    show ((replAux '.' ['p', 'y'] "_rustified.rs".data (c :: cs)).head?
        = some '/') ↔ _
    rw [replAux_cons]
    by_cases hpre : isPre ['.', 'p', 'y'] (c :: cs) = true
    · rw [if_pos hpre]
      have hc : c = '.' := by
        simp [isPre] at hpre
        exact hpre.1.symm
      subst hc
      constructor
      · intro h
        rw [show "_rustified.rs".data = '_' :: "rustified.rs".data from rfl] at h
        exact absurd h (by simp)
      · intro h
        exact absurd h (by simp)
    · rw [if_neg hpre]
      simp

theorem isAbs_pyRename (s : String) :
    isAbs (String.mk (pyRename s.data)) = isAbs s := by
  unfold isAbs
  exact decide_eq_decide.mpr (pyRename_head_slash s.data)

theorem map_id_on {α : Type} (f : α → α) :
    ∀ l : List α, (∀ a ∈ l, f a = a) → l.map f = l := by
  intro l
  induction l with
  | nil => intro _; rfl
  | cons c t ih =>
    intro h
    rw [List.map_cons, h c (List.mem_cons_self c t),
      ih (fun a ha => h a (List.mem_cons_of_mem c ha))]

/-- When no directory segment of the parsed output path contains `.py`,
the rename changes only the final segment, so the written path has the
same parent directory as the path whose parent was created. -/
theorem parentDir_written (x : String)
    (hpy : ∀ c ∈ (pdirComps x).dropLast, hasOcc ['.', 'p', 'y'] c = false) :
    parentDir (String.mk (pyRename x.data)) = parentDir x := by
  have hpd : pdirComps (String.mk (pyRename x.data))
      = (pdirComps x).map pyRename := by
    show List.filter _ (splitSlash (pyRename x.data)) = _
    rw [splitSlash_pyRename, filter_map_pyRename]
    rfl
  have hdrop : (pdirComps (String.mk (pyRename x.data))).dropLast
      = (pdirComps x).dropLast := by
    rw [hpd, map_dropLast_comm]
    exact map_id_on pyRename _ (fun c hc => pyRename_of_no_py (hpy c hc))
  have habs : isAbs (String.mk (pyRename x.data)) = isAbs x := isAbs_pyRename x
  show (if isAbs (String.mk (pyRename x.data)) then
      mkPath true ((pdirComps (String.mk (pyRename x.data))).dropLast)
    else if (pdirComps (String.mk (pyRename x.data))).dropLast = [] then "."
    else mkPath false ((pdirComps (String.mk (pyRename x.data))).dropLast))
    = parentDir x
  rw [hdrop, habs]
  rfl

/-- **C7, amended.**  Provided no segment of the directory part of the
computed output path contains `.py` (so the rename touches only the file
name), the parent directory of the path actually written coincides with
the directory created at line 62, and therefore exists before the write is
attempted.  When a directory segment does contain `.py` the two differ and
the write can fail for a missing parent (see the counterexample), the
failure being recorded as that file's failure. -/
theorem c7_amended_thm (repo out p : String) (fs fs2 : FS)
    (hpy : ∀ c ∈ (pdirComps (outputPathOf repo out p)).dropLast,
        hasOcc ['.', 'p', 'y'] c = false)
    (hmk : mkdirParents fs (parentDir (outputPathOf repo out p))
      = Except.ok fs2) :
    parentDir (writtenPathOf repo out p) = parentDir (outputPathOf repo out p)
      ∧ dirExists fs2 (parentDir (writtenPathOf repo out p)) = true := by
  have heq : parentDir (writtenPathOf repo out p)
      = parentDir (outputPathOf repo out p) := by
    rw [show writtenPathOf repo out p
        = String.mk (pyRename (outputPathOf repo out p).data) from rfl]
    exact parentDir_written _ hpy
  refine ⟨heq, ?_⟩
  rw [heq]
  exact dirExists_parentDir _ hmk

/-- **C7, witness.**  The amended claim at a well-behaved concrete input
(`/a/x/f.py`, no `.py` in any directory segment). -/
theorem c7_amended_wit :
    parentDir (writtenPathOf "/a" "/b" "/a/x/f.py")
        = parentDir (outputPathOf "/a" "/b" "/a/x/f.py")
      ∧ dirExists (FS.mk [] ["/", "/b", "/b/x"])
          (parentDir (writtenPathOf "/a" "/b" "/a/x/f.py")) = true :=
  c7_amended_thm "/a" "/b" "/a/x/f.py" (FS.mk [] ["/"])
    (FS.mk [] ["/", "/b", "/b/x"]) (by decide) (by decide)

/-! ## Claim C5 -/

/-- A second three-file scenario with a failing middle file, used to
exhibit the complete value a run hands back to its caller. -/
def fsC5 : FS :=
  { files := [("/a/g1.py", "d1"), ("/a/g2.py", "d2"), ("/a/g3.py", "d3")],
    dirs := ["/", "/a"] }

def capC5 : String → Except String String :=
  fun s => if s = promptFor "d2" then Except.error "boom" else Except.ok "RUST"

def runC5 : PyState × Option PyError :=
  traverse_repo capC5 "/a" "/c" { fs := fsC5, log := [] }

/-- **C5, counterexample.**  The claim says every run returns a
`RunSummary` with processed/succeeded/failed counts and failure records.
In the source, `traverse_repo` returns `None`: the caller receives only
the side effects — the filesystem and the printed lines.  This theorem
exhibits the *entire* result of the three-file one-failure run: a state
(files written, directories made, ten printed lines) and no exception.
No summary value, and no counts of any kind, are computed or returned —
`processed=3, succeeded=2, failed=1` appears nowhere. -/
theorem c5_counterexample :
    runC5 = (PyState.mk
      (FS.mk
        [("/a/g1.py", "d1"), ("/a/g2.py", "d2"), ("/a/g3.py", "d3"),
          ("/c/g1_rustified.rs", "RUST"), ("/c/g3_rustified.rs", "RUST")]
        ["/", "/a", "/c"])
      ["Processing file: /a/g1.py",
        "Transformation received from Groq:", "RUST",
        "Saved Rustified file: /c/g1_rustified.rs",
        "Processing file: /a/g2.py",
        "Error processing /a/g2.py: boom",
        "Processing file: /a/g3.py",
        "Transformation received from Groq:", "RUST",
        "Saved Rustified file: /c/g3_rustified.rs"], none) := by
  decide

/-- **C5, amended.**  A run over an existing input root returns no
summary and no counts: the caller gets back only the world state.  What
the spec's scenario asks for is observable solely through that state: the
run finishes without an exception, output files exist for the first and
third files, none exists for the second, and the second file's failure is
recorded as a printed `Error processing …` line only. -/
theorem c5_amended_thm :
    runC5.2 = none
      ∧ lookupFile runC5.1.fs "/c/g1_rustified.rs" = some "RUST"
      ∧ lookupFile runC5.1.fs "/c/g3_rustified.rs" = some "RUST"
      ∧ lookupFile runC5.1.fs "/c/g2_rustified.rs" = none
      ∧ "Error processing /a/g2.py: boom" ∈ runC5.1.log
      ∧ ∀ l ∈ runC5.1.log,
          l ∈ (["Processing file: /a/g1.py",
            "Transformation received from Groq:", "RUST",
            "Saved Rustified file: /c/g1_rustified.rs",
            "Processing file: /a/g2.py",
            "Error processing /a/g2.py: boom",
            "Processing file: /a/g3.py",
            "Saved Rustified file: /c/g3_rustified.rs"] : List String) := by
  exact ⟨by decide, by decide, by decide, by decide, by decide, by decide⟩

/-! ## Claim C8 -/

/-- Two-file scenario in which the first file's write fails on the first
run only: its written parent `/b/d_rustified.rs` is created later, by the
second file's `mkdir`. -/
def fsC8 : FS :=
  { files := [("/a/d.py/x.py", "cx"), ("/a/d_rustified.rs/g.py", "cg")],
    dirs := ["/", "/a", "/a/d.py", "/a/d_rustified.rs"] }

def runC8a : PyState × Option PyError :=
  traverse_repo capOk "/a" "/b" { fs := fsC8, log := [] }

def runC8b : PyState × Option PyError :=
  traverse_repo capOk "/a" "/b" runC8a.1

/-- **C8, counterexample.**  Running twice over the unchanged input tree
is *not* byte-identical: in the first run `x.py`'s write fails (its
rewritten parent `/b/d_rustified.rs` does not exist yet), and the later
file `d_rustified.rs/g.py` then creates that very directory; on the second
run `x.py`'s write succeeds, so the second run produces an output file the
first run did not. -/
theorem c8_counterexample :
    runC8a.2 = none
      ∧ runC8b.2 = none
      ∧ lookupFile runC8a.1.fs "/b/d_rustified.rs/x_rustified.rs" = none
      ∧ lookupFile runC8b.1.fs "/b/d_rustified.rs/x_rustified.rs"
          = some "RUST" := by
  exact ⟨by decide, by decide, by decide, by decide⟩

/-- The text (if any) one loop iteration writes for file `p`, computed
from the pinned initial filesystem `fs0`. -/
def writeValOf (cap : String → Except String String) (fs0 : FS)
    (p : String) : Option String :=
  if eligibleFile p = false then none
  else
    match lookupFile fs0 p with
    | none => none
    | some content =>
      match cap (promptFor content) with
      | Except.error _ => none
      | Except.ok rust => some rust

/-- The intended per-file effect on the filesystem, for a run whose reads
all see the initial contents `fs0` and whose directory creations and
writes all succeed. -/
def effFS (cap : String → Except String String) (repo out : String)
    (fs0 fs : FS) (p : String) : FS :=
  if eligibleFile p = false then fs
  else
    let ds := addAllA fs.dirs (dirsToMake (parentDir (outputPathOf repo out p)))
    let fs' := { fs with dirs := ds }
    match writeValOf cap fs0 p with
    | none => fs'
    | some rust =>
      { fs' with files := updateA fs'.files (writtenPathOf repo out p) rust }

/-- The last value written at path `x` by a run over the files `L` (later
files overwrite earlier ones). -/
def lastWrite (cap : String → Except String String) (repo out : String)
    (fs0 : FS) : List String → String → Option String
  | [], _ => none
  | p :: t, x =>
    match lastWrite cap repo out fs0 t x with
    | some v => some v
    | none =>
      if writtenPathOf repo out p = x then writeValOf cap fs0 p else none

theorem effFS_lookup (cap : String → Except String String)
    (repo out : String) (fs0 fs : FS) (p x : String) :
    lookupFile (effFS cap repo out fs0 fs p) x
      = match (if writtenPathOf repo out p = x
          then writeValOf cap fs0 p else none) with
        | some v => some v
        | none => lookupFile fs x := by
  unfold effFS
  by_cases he : eligibleFile p = false
  · rw [if_pos he]
    unfold writeValOf
    rw [if_pos he]
    by_cases hx : writtenPathOf repo out p = x <;> simp [hx]
  · rw [if_neg he]
    dsimp only
    cases hv : writeValOf cap fs0 p with
    | none =>
      by_cases hx : writtenPathOf repo out p = x <;> simp [hx, lookupFile]
    | some rust =>
      show lookupA (updateA fs.files (writtenPathOf repo out p) rust) x = _
      rw [lookupA_updateA]
      by_cases hx : writtenPathOf repo out p = x
      · simp [hx]
      · simp [hx, lookupFile]

theorem lookupFile_foldl_eff (cap : String → Except String String)
    (repo out : String) (fs0 : FS) :
    ∀ (E : List String) (fs : FS) (x : String),
      lookupFile (List.foldl (effFS cap repo out fs0) fs E) x
        = match lastWrite cap repo out fs0 E x with
          | some v => some v
          | none => lookupFile fs x := by
  intro E
  induction E with
  | nil => intro fs x; rfl
  | cons p t ih =>
    intro fs x
    show lookupFile (List.foldl _ (effFS cap repo out fs0 fs p) t) x = _
    rw [ih]
    show _ = (match (match lastWrite cap repo out fs0 t x with
      | some v => some v
      | none => if writtenPathOf repo out p = x
          then writeValOf cap fs0 p else none) with
      | some v => some v
      | none => lookupFile fs x)
    cases lastWrite cap repo out fs0 t x with
    | some v => rfl
    | none =>
      rw [effFS_lookup]

theorem memA_effFS (cap : String → Except String String)
    (repo out : String) (fs0 fs : FS) (p d : String) :
    memA (effFS cap repo out fs0 fs p).dirs d = true
      ↔ (memA fs.dirs d = true
        ∨ (eligibleFile p = true
            ∧ d ∈ dirsToMake (parentDir (outputPathOf repo out p)))) := by
  unfold effFS
  by_cases he : eligibleFile p = false
  · rw [if_pos he]
    constructor
    · exact Or.inl
    · rintro (hd | ⟨helig, _⟩)
      · exact hd
      · rw [he] at helig
        cases helig
  · rw [if_neg he]
    have he' : eligibleFile p = true := by
      cases hx : eligibleFile p with
      | false => exact absurd hx he
      | true => rfl
    dsimp only
    cases hv : writeValOf cap fs0 p with
    | none =>
      show memA (addAllA fs.dirs _) d = true ↔ _
      rw [memA_addAllA, ← memA_iff]
      constructor
      · rintro (hd | hd)
        · exact Or.inl hd
        · exact Or.inr ⟨he', hd⟩
      · rintro (hd | ⟨_, hd⟩)
        · exact Or.inl hd
        · exact Or.inr hd
    | some rust =>
      show memA (addAllA fs.dirs _) d = true ↔ _
      rw [memA_addAllA, ← memA_iff]
      constructor
      · rintro (hd | hd)
        · exact Or.inl hd
        · exact Or.inr ⟨he', hd⟩
      · rintro (hd | ⟨_, hd⟩)
        · exact Or.inl hd
        · exact Or.inr hd

theorem memA_foldl_eff (cap : String → Except String String)
    (repo out : String) (fs0 : FS) :
    ∀ (E : List String) (fs : FS) (d : String),
      memA (List.foldl (effFS cap repo out fs0) fs E).dirs d = true
        ↔ (memA fs.dirs d = true
          ∨ ∃ p ∈ E, eligibleFile p = true
              ∧ d ∈ dirsToMake (parentDir (outputPathOf repo out p))) := by
  intro E
  induction E with
  | nil =>
    intro fs d
    simp
  | cons p t ih =>
    intro fs d
    show memA (List.foldl _ (effFS cap repo out fs0 fs p) t).dirs d = true ↔ _
    rw [ih, memA_effFS]
    constructor
    · rintro ((hd | ⟨he, hd⟩) | ⟨q, hq, he, hd⟩)
      · exact Or.inl hd
      · exact Or.inr ⟨p, List.mem_cons_self p t, he, hd⟩
      · exact Or.inr ⟨q, List.mem_cons_of_mem p hq, he, hd⟩
    · rintro (hd | ⟨q, hq, he, hd⟩)
      · exact Or.inl (Or.inl hd)
      · rcases List.mem_cons.mp hq with rfl | hq
        · exact Or.inl (Or.inr ⟨he, hd⟩)
        · exact Or.inr ⟨q, hq, he, hd⟩

theorem foldl_eff_filter (cap : String → Except String String)
    (repo out : String) (fs0 : FS) :
    ∀ (E : List String) (fs : FS),
      List.foldl (effFS cap repo out fs0) fs E
        = List.foldl (effFS cap repo out fs0) fs (E.filter eligibleFile) := by
  intro E
  induction E with
  | nil => intro fs; rfl
  | cons p t ih =>
    intro fs
    cases he : eligibleFile p with
    | false =>
      show List.foldl _ (effFS cap repo out fs0 fs p) t = _
      rw [List.filter_cons_of_neg (by simp [he])]
      have hskip : effFS cap repo out fs0 fs p = fs := by
        unfold effFS
        rw [if_pos he]
      rw [hskip, ih]
    | true =>
      show List.foldl _ (effFS cap repo out fs0 fs p) t = _
      rw [List.filter_cons_of_pos (by simp [he])]
      show _ = List.foldl _ (effFS cap repo out fs0 fs p) (t.filter eligibleFile)
      rw [ih]

theorem lastWrite_filter (cap : String → Except String String)
    (repo out : String) (fs0 : FS) :
    ∀ (E : List String) (x : String),
      lastWrite cap repo out fs0 E x
        = lastWrite cap repo out fs0 (E.filter eligibleFile) x := by
  intro E
  induction E with
  | nil => intro x; rfl
  | cons p t ih =>
    intro x
    cases he : eligibleFile p with
    | false =>
      rw [List.filter_cons_of_neg (by simp [he])]
      show (match lastWrite cap repo out fs0 t x with
        | some v => some v
        | none => if writtenPathOf repo out p = x
            then writeValOf cap fs0 p else none) = _
      rw [← ih]
      cases lastWrite cap repo out fs0 t x with
      | some v => rfl
      | none =>
        have hnone : writeValOf cap fs0 p = none := by
          unfold writeValOf
          rw [if_pos he]
        rw [hnone]
        by_cases hx : writtenPathOf repo out p = x <;> simp [hx]
    | true =>
      rw [List.filter_cons_of_pos (by simp [he])]
      show (match lastWrite cap repo out fs0 t x with
        | some v => some v
        | none => if writtenPathOf repo out p = x
            then writeValOf cap fs0 p else none)
        = (match lastWrite cap repo out fs0 (t.filter eligibleFile) x with
        | some v => some v
        | none => if writtenPathOf repo out p = x
            then writeValOf cap fs0 p else none)
      rw [ih]

theorem lookupA_ne_none_iff (l : List (String × String)) (k : String) :
    lookupA l k ≠ none ↔ k ∈ l.map Prod.fst := by
  induction l with
  | nil => simp [lookupA]
  | cons kv t ih =>
    obtain ⟨k', v'⟩ := kv
    by_cases hk : k' = k
    · subst hk
      simp [lookupA]
    · show (if k' = k then some v' else lookupA t k) ≠ none ↔ _
      rw [if_neg hk]
      simp only [List.map_cons, List.mem_cons, ih]
      constructor
      · exact Or.inr
      · rintro (hx | hx)
        · exact absurd hx.symm hk
        · exact hx

theorem updateA_keys (l : List (String × String)) (k v : String) :
    (updateA l k v).map Prod.fst
      = if k ∈ l.map Prod.fst then l.map Prod.fst
        else l.map Prod.fst ++ [k] := by
  induction l with
  | nil => simp [updateA]
  | cons kv t ih =>
    obtain ⟨k', v'⟩ := kv
    by_cases hk : k' = k
    · subst hk
      rw [show updateA ((k', v') :: t) k' v = (k', v) :: t from by
        rw [updateA, if_pos (show k' = k' from rfl)]]
      rw [if_pos (by simp)]
      rfl
    · rw [show updateA ((k', v') :: t) k v = (k', v') :: updateA t k v from by
        rw [updateA, if_neg hk]]
      simp only [List.map_cons, ih]
      by_cases hmem : k ∈ t.map Prod.fst
      · rw [if_pos hmem, if_pos (by simp [hmem])]
      · rw [if_neg hmem,
          if_neg (by
            simp only [List.map_cons, List.mem_cons]
            rintro (hx | hx)
            · exact hk hx.symm
            · exact hmem hx)]
        rfl

theorem keys_foldl_eff (cap : String → Except String String)
    (repo out : String) (fs0 : FS) :
    ∀ (E : List String) (fs : FS),
      (∀ p ∈ E, eligibleFile p = true
        → eligibleFile (writtenPathOf repo out p) = false) →
      ∃ K, (List.foldl (effFS cap repo out fs0) fs E).files.map Prod.fst
          = fs.files.map Prod.fst ++ K
        ∧ ∀ k ∈ K, eligibleFile k = false := by
  intro E
  induction E with
  | nil => intro fs _; exact ⟨[], by simp, by simp⟩
  | cons p t ih =>
    intro fs hE
    have hstep : ∃ K0, (effFS cap repo out fs0 fs p).files.map Prod.fst
        = fs.files.map Prod.fst ++ K0 ∧ ∀ k ∈ K0, eligibleFile k = false := by
      unfold effFS
      by_cases he : eligibleFile p = false
      · rw [if_pos he]
        exact ⟨[], by simp, by simp⟩
      · rw [if_neg he]
        dsimp only
        cases writeValOf cap fs0 p with
        | none => exact ⟨[], by simp, by simp⟩
        | some rust =>
          show ∃ K0, (updateA fs.files (writtenPathOf repo out p) rust).map
              Prod.fst = fs.files.map Prod.fst ++ K0
            ∧ ∀ k ∈ K0, eligibleFile k = false
          rw [updateA_keys]
          by_cases hmem : writtenPathOf repo out p ∈ fs.files.map Prod.fst
          · rw [if_pos hmem]
            exact ⟨[], by simp, by simp⟩
          · rw [if_neg hmem]
            refine ⟨[writtenPathOf repo out p], rfl, ?_⟩
            intro k hk
            rw [List.mem_singleton.mp hk]
            exact hE p (List.mem_cons_self p t) (by
              cases hx : eligibleFile p with
              | false => exact absurd hx he
              | true => rfl)
    obtain ⟨K0, hK0, hK0e⟩ := hstep
    obtain ⟨K1, hK1, hK1e⟩ := ih (effFS cap repo out fs0 fs p)
      (fun q hq => hE q (List.mem_cons_of_mem p hq))
    refine ⟨K0 ++ K1, ?_, ?_⟩
    · show (List.foldl _ (effFS cap repo out fs0 fs p) t).files.map Prod.fst = _
      rw [hK1, hK0, List.append_assoc]
    · intro k hk
      rcases List.mem_append.mp hk with hk | hk
      · exact hK0e k hk
      · exact hK1e k hk

theorem mem_walkFiles (fs : FS) (repo p : String) :
    p ∈ walkFiles fs repo
      ↔ (p ∈ fs.files.map Prod.fst ∧ underRepo repo p = true) := by
  unfold walkFiles
  rw [List.mem_filter]

/-- Invariant of the replay argument: relative to the initial filesystem
`fs0` and the discovered files `L`, a mid-run (or re-run) filesystem still
shows every eligible discovered file with its initial contents, its
directories beyond `fs0`'s are ones a loop iteration creates, and its files
beyond `fs0`'s are written output files. -/
def replayInv (repo out : String) (fs0 : FS) (L : List String) (fs : FS) :
    Prop :=
  (∀ q ∈ L, eligibleFile q = true → lookupFile fs q = lookupFile fs0 q)
    ∧ (∀ d, memA fs.dirs d = true → memA fs0.dirs d = true
        ∨ ∃ q ∈ L, eligibleFile q = true
            ∧ d ∈ dirsToMake (parentDir (outputPathOf repo out q)))
    ∧ (∀ a, lookupFile fs a ≠ none → lookupFile fs0 a ≠ none
        ∨ ∃ q ∈ L, eligibleFile q = true ∧ a = writtenPathOf repo out q)

/-- Side conditions under which a run is undisturbed by its own outputs:
for every eligible discovered file, the rename keeps the parent directory
(no `.py` directory segment in play), rewritten outputs are never
themselves eligible, the directories to be created never collide with an
initial file or an output, and outputs never collide with an initial or
needed directory. -/
def replayHyps (repo out : String) (fs0 : FS) (L : List String) : Prop :=
  ∀ p ∈ L, eligibleFile p = true →
    (parentDir (writtenPathOf repo out p) = parentDir (outputPathOf repo out p))
      ∧ eligibleFile (writtenPathOf repo out p) = false
      ∧ (∀ a ∈ dirsToMake (parentDir (outputPathOf repo out p)),
          lookupFile fs0 a = none
            ∧ ∀ q ∈ L, eligibleFile q = true → a ≠ writtenPathOf repo out q)
      ∧ memA fs0.dirs (writtenPathOf repo out p) = false
      ∧ (∀ q ∈ L, eligibleFile q = true →
          writtenPathOf repo out p ∉ dirsToMake (parentDir (outputPathOf repo out q)))

/-- `mkdir -p` of `d` at the filesystem level. -/
def mkdirFS (fs : FS) (d : String) : FS :=
  { fs with dirs := addAllA fs.dirs (dirsToMake d) }

/-- A successful full write at the filesystem level. -/
def writeFS (fs : FS) (p v : String) : FS :=
  { fs with files := updateA fs.files p v }

set_option maxHeartbeats 1000000

/-- Under the side conditions, one loop iteration behaves exactly like the
abstract effect `effFS`, never propagates an error, and preserves the
invariant. -/
theorem traverse_step_eff (cap : String → Except String String)
    (repo out : String) (fs0 : FS) (L : List String)
    (hh : replayHyps repo out fs0 L) (st : PyState) (p : String)
    (hinv : replayInv repo out fs0 L st.fs)
    (hpL : eligibleFile p = true → p ∈ L) :
    (traverse_step cap repo out st p).2 = none
      ∧ (traverse_step cap repo out st p).1.fs = effFS cap repo out fs0 st.fs p
      ∧ replayInv repo out fs0 L (traverse_step cap repo out st p).1.fs := by
  by_cases he : eligibleFile p = true
  case neg =>
    have he' : eligibleFile p = false := by
      cases hx : eligibleFile p with
      | false => rfl
      | true => exact absurd hx he
    rw [traverse_step_skip cap repo out st p he']
    have heff : effFS cap repo out fs0 st.fs p = st.fs := by
      unfold effFS
      rw [if_pos he']
    exact ⟨rfl, heff.symm, hinv⟩
  case pos =>
    have hpL' := hpL he
    obtain ⟨hH1, hH2, hH3, hH4, hH5⟩ := hh p hpL' he
    have hany : ((dirsToMake (parentDir (outputPathOf repo out p))).any
        (fun a => (lookupFile st.fs a).isSome)) = false := by
      cases hx : ((dirsToMake (parentDir (outputPathOf repo out p))).any
          (fun a => (lookupFile st.fs a).isSome)) with
      | false => rfl
      | true =>
        exfalso
        obtain ⟨a, ha, hsome⟩ := List.any_eq_true.mp hx
        have hne : lookupFile st.fs a ≠ none := by
          intro hnone
          rw [hnone] at hsome
          cases hsome
        rcases hinv.2.2 a hne with hcon | ⟨q, hq, heq, hwq⟩
        · exact hcon (hH3 a ha).1
        · exact (hH3 a ha).2 q hq heq hwq
    have hmk : mkdirParents st.fs (parentDir (outputPathOf repo out p))
        = Except.ok (mkdirFS st.fs (parentDir (outputPathOf repo out p))) := by
      unfold mkdirParents
      rw [if_neg (by simp [hany])]
      rfl
    -- the invariant after only the mkdir
    have hinvDir : replayInv repo out fs0 L
        (mkdirFS st.fs (parentDir (outputPathOf repo out p))) := by
      refine ⟨?_, ?_, ?_⟩
      · exact fun q hq heq => hinv.1 q hq heq
      · intro d hd
        have : d ∈ addAllA st.fs.dirs
            (dirsToMake (parentDir (outputPathOf repo out p))) :=
          (memA_iff _ _).mp hd
        rcases (mem_addAllA _ _ _).mp this with hd' | hd'
        · exact hinv.2.1 d ((memA_iff _ _).mpr hd')
        · exact Or.inr ⟨p, hpL', he, hd'⟩
      · exact fun a ha => hinv.2.2 a ha
    -- the written path is not a directory of the mid state
    have hnotdir : memA (mkdirFS st.fs
        (parentDir (outputPathOf repo out p))).dirs
        (writtenPathOf repo out p) = false := by
      cases hx : memA (mkdirFS st.fs
          (parentDir (outputPathOf repo out p))).dirs
          (writtenPathOf repo out p) with
      | false => rfl
      | true =>
        exfalso
        have : writtenPathOf repo out p ∈ addAllA st.fs.dirs
            (dirsToMake (parentDir (outputPathOf repo out p))) :=
          (memA_iff _ _).mp hx
        rcases (mem_addAllA _ _ _).mp this with hd' | hd'
        · rcases hinv.2.1 _ ((memA_iff _ _).mpr hd') with hcon | ⟨q, hq, heq, hwq⟩
          · rw [hH4] at hcon
            cases hcon
          · exact hH5 q hq heq hwq
        · exact hH5 p hpL' he hd'
    have hlookMID : lookupFile (mkdirFS st.fs
        (parentDir (outputPathOf repo out p))) p = lookupFile fs0 p :=
      hinv.1 p hpL' he
    rw [traverse_step_elig cap repo out st p he, hmk]
    dsimp only
    unfold process_file
    cases hr : lookupFile fs0 p with
    | none =>
      rw [show lookupFile (PyState.mk (mkdirFS st.fs
          (parentDir (outputPathOf repo out p)))
          (st.log ++ ["Processing file: " ++ p])).fs p = none
        from hlookMID.trans hr]
      have heff : effFS cap repo out fs0 st.fs p
          = mkdirFS st.fs (parentDir (outputPathOf repo out p)) := by
        unfold effFS
        rw [if_neg (by simp [he])]
        dsimp only
        rw [show writeValOf cap fs0 p = none from by
          unfold writeValOf
          rw [if_neg (by simp [he]), hr]]
        rfl
      exact ⟨rfl, heff.symm, hinvDir⟩
    | some content =>
      rw [show lookupFile (PyState.mk (mkdirFS st.fs
          (parentDir (outputPathOf repo out p)))
          (st.log ++ ["Processing file: " ++ p])).fs p = some content
        from hlookMID.trans hr]
      dsimp only
      cases hcap : cap (promptFor content) with
      | error m =>
        have heff : effFS cap repo out fs0 st.fs p
            = mkdirFS st.fs (parentDir (outputPathOf repo out p)) := by
          unfold effFS
          rw [if_neg (by simp [he])]
          dsimp only
          rw [show writeValOf cap fs0 p = none from by
            unfold writeValOf
            rw [if_neg (by simp [he]), hr]
            dsimp only
            rw [hcap]]
          rfl
        exact ⟨rfl, heff.symm, hinvDir⟩
      | ok rust =>
        dsimp only
        rw [show strReplace (outputPathOf repo out p) ".py" "_rustified.rs"
          = writtenPathOf repo out p from rfl]
        have hparent : dirExists (mkdirFS st.fs
            (parentDir (outputPathOf repo out p)))
            (parentDir (writtenPathOf repo out p)) = true := by
          rw [hH1]
          exact dirExists_parentDir _ hmk
        have hw : writeFile (mkdirFS st.fs
            (parentDir (outputPathOf repo out p)))
            (writtenPathOf repo out p) rust
            = Except.ok (writeFS (mkdirFS st.fs
                (parentDir (outputPathOf repo out p)))
                (writtenPathOf repo out p) rust) := by
          unfold writeFile
          rw [if_neg (by simp [hnotdir]), if_pos hparent]
          rfl
        dsimp only [pushLog]
        rw [hw]
        dsimp only
        have heff : effFS cap repo out fs0 st.fs p
            = writeFS (mkdirFS st.fs (parentDir (outputPathOf repo out p)))
                (writtenPathOf repo out p) rust := by
          unfold effFS
          rw [if_neg (by simp [he])]
          dsimp only
          rw [show writeValOf cap fs0 p = some rust from by
            unfold writeValOf
            rw [if_neg (by simp [he]), hr]
            dsimp only
            rw [hcap]]
          rfl
        refine ⟨rfl, heff.symm, ?_, ?_, ?_⟩
        · intro q hq heq
          show lookupA (updateA st.fs.files (writtenPathOf repo out p) rust) q
            = lookupFile fs0 q
          rw [lookupA_updateA,
            if_neg (fun hx => by
              rw [← hx] at heq
              rw [hH2] at heq
              cases heq)]
          exact hinv.1 q hq heq
        · intro d hd
          have : d ∈ addAllA st.fs.dirs
              (dirsToMake (parentDir (outputPathOf repo out p))) :=
            (memA_iff _ _).mp hd
          rcases (mem_addAllA _ _ _).mp this with hd' | hd'
          · exact hinv.2.1 d ((memA_iff _ _).mpr hd')
          · exact Or.inr ⟨p, hpL', he, hd'⟩
        · intro a ha
          show _ ∨ _
          by_cases hx : writtenPathOf repo out p = a
          · exact Or.inr ⟨p, hpL', he, hx.symm⟩
          · apply hinv.2.2 a
            intro hnone
            apply ha
            show lookupA (updateA st.fs.files
              (writtenPathOf repo out p) rust) a = none
            rw [lookupA_updateA, if_neg hx]
            exact hnone

theorem runFiles_eff (cap : String → Except String String)
    (repo out : String) (fs0 : FS) (L : List String)
    (hh : replayHyps repo out fs0 L) :
    ∀ (E : List String) (st : PyState),
      replayInv repo out fs0 L st.fs →
      (∀ p ∈ E, eligibleFile p = true → p ∈ L) →
      (runFiles cap repo out E st).2 = none
        ∧ (runFiles cap repo out E st).1.fs
            = List.foldl (effFS cap repo out fs0) st.fs E
        ∧ replayInv repo out fs0 L (runFiles cap repo out E st).1.fs := by
  intro E
  induction E with
  | nil => intro st hinv _; exact ⟨rfl, rfl, hinv⟩
  | cons p t ih =>
    intro st hinv hsub
    obtain ⟨h2, hfs, hinv'⟩ := traverse_step_eff cap repo out fs0 L hh st p hinv
      (fun he => hsub p (List.mem_cons_self p t) he)
    cases hstep : traverse_step cap repo out st p with
    | mk st' e =>
      cases e with
      | some e' =>
        rw [hstep] at h2
        cases h2
      | none =>
        have hrun : runFiles cap repo out (p :: t) st
            = runFiles cap repo out t st' := by
          show (match traverse_step cap repo out st p with
            | (st'', none) => runFiles cap repo out t st''
            | (st'', some e) => (st'', some e)) = _
          rw [hstep]
        rw [hstep] at hfs hinv'
        obtain ⟨g2, gfs, ginv⟩ := ih st' hinv'
          (fun q hq he => hsub q (List.mem_cons_of_mem p hq) he)
        refine ⟨by rw [hrun]; exact g2, ?_, by rw [hrun]; exact ginv⟩
        rw [hrun, gfs]
        show List.foldl _ st'.fs t = List.foldl _ (effFS cap repo out fs0 st.fs p) t
        rw [show st'.fs = effFS cap repo out fs0 st.fs p from hfs]

theorem bool_eq_of_iff {b c : Bool} (h : b = true ↔ c = true) : b = c := by
  cases b <;> cases c <;> simp_all

/-- **C8, amended.**  Running the pipeline twice over the same unchanged
input tree with the same capability is idempotent *provided the run is
undisturbed by its own outputs* (`replayHyps`): for every eligible
discovered file the rename keeps the parent directory (no `.py` in any
directory segment), outputs are never eligible inputs, and neither the
created directories nor the written paths collide with initial files,
initial directories, or each other.  Then neither run propagates an error
(pre-existing output directories and files cause none), and the second
run leaves the filesystem exactly as the first: byte-identical files and
identical directories.  Without these provisos the claim fails (see the
counterexample, where a `.py` directory segment makes the first run
incomplete and the second run writes an extra file). -/
theorem c8_amended_thm (cap : String → Except String String)
    (repo out : String) (st0 : PyState)
    (hh : replayHyps repo out st0.fs (walkFiles st0.fs repo)) :
    (traverse_repo cap repo out st0).2 = none
      ∧ (traverse_repo cap repo out (traverse_repo cap repo out st0).1).2 = none
      ∧ (∀ x, lookupFile
            (traverse_repo cap repo out (traverse_repo cap repo out st0).1).1.fs x
          = lookupFile (traverse_repo cap repo out st0).1.fs x)
      ∧ (∀ d, memA
            (traverse_repo cap repo out (traverse_repo cap repo out st0).1).1.fs.dirs d
          = memA (traverse_repo cap repo out st0).1.fs.dirs d) := by
  simp only [show ∀ st : PyState, traverse_repo cap repo out st
    = runFiles cap repo out (walkFiles st.fs repo) st from fun _ => rfl]
  have hinv0 : replayInv repo out st0.fs (walkFiles st0.fs repo) st0.fs :=
    ⟨fun q _ _ => rfl, fun d hd => Or.inl hd, fun a ha => Or.inl ha⟩
  obtain ⟨r1none, r1fs, r1inv⟩ := runFiles_eff cap repo out st0.fs
    (walkFiles st0.fs repo) hh (walkFiles st0.fs repo) st0 hinv0
    (fun p hp _ => hp)
  have hE : ∀ p ∈ walkFiles st0.fs repo, eligibleFile p = true
      → eligibleFile (writtenPathOf repo out p) = false :=
    fun p hp he => (hh p hp he).2.1
  obtain ⟨K, hK, hKe⟩ := keys_foldl_eff cap repo out st0.fs
    (walkFiles st0.fs repo) st0.fs hE
  have hsub2 : ∀ p ∈ walkFiles
      (runFiles cap repo out (walkFiles st0.fs repo) st0).1.fs repo,
      eligibleFile p = true → p ∈ walkFiles st0.fs repo := by
    intro p hp he
    obtain ⟨hmem, hunder⟩ := (mem_walkFiles _ repo p).mp hp
    rw [r1fs, hK] at hmem
    rcases List.mem_append.mp hmem with hmem | hmem
    · exact (mem_walkFiles st0.fs repo p).mpr ⟨hmem, hunder⟩
    · rw [hKe p hmem] at he
      cases he
  obtain ⟨r2none, r2fs, _⟩ := runFiles_eff cap repo out st0.fs
    (walkFiles st0.fs repo) hh
    (walkFiles (runFiles cap repo out (walkFiles st0.fs repo) st0).1.fs repo)
    (runFiles cap repo out (walkFiles st0.fs repo) st0).1 r1inv hsub2
  have hfilterEq : (walkFiles
        (runFiles cap repo out (walkFiles st0.fs repo) st0).1.fs repo).filter
        eligibleFile
      = (walkFiles st0.fs repo).filter eligibleFile := by
    show ((((runFiles cap repo out (walkFiles st0.fs repo) st0).1.fs).files.map
        Prod.fst).filter (fun p => underRepo repo p)).filter eligibleFile = _
    rw [r1fs, hK, List.filter_append, List.filter_append]
    have hnilK : ((K.filter (fun p => underRepo repo p)).filter eligibleFile)
        = [] := by
      apply List.filter_eq_nil_iff.mpr
      intro a ha
      rw [hKe a (List.mem_of_mem_filter ha)]
      simp
    rw [hnilK, List.append_nil]
    rfl
  have hlast : ∀ x, lastWrite cap repo out st0.fs
        (walkFiles (runFiles cap repo out (walkFiles st0.fs repo) st0).1.fs repo) x
      = lastWrite cap repo out st0.fs (walkFiles st0.fs repo) x := by
    intro x
    rw [lastWrite_filter, hfilterEq, ← lastWrite_filter]
  refine ⟨r1none, r2none, ?_, ?_⟩
  · intro x
    rw [r2fs, lookupFile_foldl_eff, hlast, r1fs, lookupFile_foldl_eff]
    cases lastWrite cap repo out st0.fs (walkFiles st0.fs repo) x with
    | some v => rfl
    | none => rfl
  · intro d
    apply bool_eq_of_iff
    rw [r2fs, memA_foldl_eff, r1fs, memA_foldl_eff]
    constructor
    · rintro (hd | ⟨p, hp, he, hd⟩)
      · exact hd
      · rw [← r1fs] at hp
        exact Or.inr ⟨p, hsub2 p hp he, he, hd⟩
    · intro hd
      left
      exact hd

def stC8w : PyState :=
  { fs := FS.mk [("/a/f1.py", "c1")] ["/", "/a"], log := [] }

/-- **C8, witness.**  The amended claim at a concrete well-behaved tree:
the side conditions hold by computation and the double run is idempotent. -/
theorem c8_amended_wit :
    (traverse_repo capOk "/a" "/b" stC8w).2 = none
      ∧ (traverse_repo capOk "/a" "/b"
          (traverse_repo capOk "/a" "/b" stC8w).1).2 = none
      ∧ (∀ x, lookupFile (traverse_repo capOk "/a" "/b"
            (traverse_repo capOk "/a" "/b" stC8w).1).1.fs x
          = lookupFile (traverse_repo capOk "/a" "/b" stC8w).1.fs x)
      ∧ (∀ d, memA (traverse_repo capOk "/a" "/b"
            (traverse_repo capOk "/a" "/b" stC8w).1).1.fs.dirs d
          = memA (traverse_repo capOk "/a" "/b" stC8w).1.fs.dirs d) :=
  c8_amended_thm capOk "/a" "/b" stC8w (by unfold replayHyps; decide)
